import Mathlib

/-!
Verification of the golsm write path: a shallow embedding of the
skip list (`src/skiplist/skiplist.go`), the write-ahead log
(`src/wal/wal.go`) and the memtable (`src/memtable/memtable.go`),
with proofs of the specified properties.

Bytes are modelled as `Nat` (values < 256 in well-formed data), files as
`List Nat`, Go's fallible calls as `Except`-valued functions, and the
operating-system state touched by the WAL (file contents, write offset)
as explicit record fields.
-/

namespace Golsm

/-! ## WAL record serialization (`wal.go`) -/
/-- Operation type byte for Put records (`TypePut byte = 1`). -/
def TypePut : Nat := 1

/-- Operation type byte for Delete records (`TypeDelete byte = 2`). -/
def TypeDelete : Nat := 2

/-- Embedding of `wal.Record`: `Type byte; Key []byte; Value []byte`.
The Go field `Type` is called `typ` here because `Type` is reserved in Lean. -/
structure Record where
  typ : Nat
  key : List Nat
  value : List Nat
  deriving DecidableEq

/-- Emission loop of `encodeVarint` / `binary.PutUvarint`, structurally
recursive on the remaining buffer space (`binary.PutUvarint` writes into a
10-byte buffer, which always suffices for a `uint64`); the zero-fuel arm is
never reached for values below `2 ^ 64`. -/
def encodeVarintAux : Nat → Nat → List Nat
  | 0, x => [x % 0x80]
  | fuel + 1, x =>
    if x < 0x80 then [x]
    else (x % 0x80 + 0x80) :: encodeVarintAux fuel (x / 0x80)

/-- Embedding of `encodeVarint` / `binary.PutUvarint`: unsigned LEB128,
7 data bits per byte, high bit = continuation. -/
def encodeVarint (x : Nat) : List Nat :=
  encodeVarintAux 10 x

/-- Single shift-xor step of the reflected CRC32 computation
(polynomial 0xEDB88320, as used by `crc32.ChecksumIEEE`). -/
def crc32Step (c : Nat) : Nat :=
  if c % 2 = 1 then (c / 2) ^^^ 0xEDB88320 else c / 2

/-- Fold one input byte into a CRC32 accumulator. -/
def crc32Update (c b : Nat) : Nat :=
  crc32Step^[8] (c ^^^ b)

/-- Embedding of `crc32.ChecksumIEEE` over a byte list. -/
def crc32 (bs : List Nat) : Nat :=
  (bs.foldl crc32Update 0xFFFFFFFF) ^^^ 0xFFFFFFFF

/-- Embedding of `binary.LittleEndian.PutUint32`. -/
def putUint32LE (x : Nat) : List Nat :=
  [x % 256, x / 256 % 256, x / 65536 % 256, x / 16777216 % 256]

/-- Embedding of `binary.LittleEndian.Uint32` on a 4-byte buffer. -/
def readUint32LE (bs : List Nat) : Nat :=
  bs.getD 0 0 + 256 * bs.getD 1 0 + 65536 * bs.getD 2 0 + 16777216 * bs.getD 3 0

/-- Serialized bytes of one record, exactly as built by `WAL.Write` (and,
record by record, by `WAL.WriteBatch`):
`[type][keyLen varint][valueLen varint][key][value][crc32 LE]`, where the
checksum covers every preceding byte of the record. -/
def encodeRecord (r : Record) : List Nat :=
  let body := r.typ :: (encodeVarint r.key.length ++ encodeVarint r.value.length
    ++ r.key ++ r.value)
  body ++ putUint32LE (crc32 body)

/-! ## WAL state and write path -/
/-- State of an open WAL: the file's byte contents, the kernel file offset of
the write handle (the file is opened with `O_CREATE|O_RDWR` and no `O_APPEND`,
so this offset starts at 0 and only advances with each write), and the
`WAL.size` field. -/
structure WAL where
  file : List Nat
  pos : Nat
  size : Nat
  deriving DecidableEq

/-- Overwriting write of `buf` into file contents `f` at offset `pos`,
the behavior of `os.File.Write` at a given kernel offset. -/
def osWrite (f : List Nat) (pos : Nat) (buf : List Nat) : List Nat :=
  f.take pos ++ buf ++ f.drop (pos + buf.length)

namespace WAL

/-- Embedding of `wal.Open` on a successfully opened file with the given
contents: the handle's offset is 0 and `size` is `stat.Size()`. -/
def Open (contents : List Nat) : WAL :=
  { file := contents, pos := 0, size := contents.length }

/-- Embedding of `WAL.Write` (successful write): serializes the record,
writes the buffer at the handle's current offset, and adds the record size
to `w.size`. -/
def Write (w : WAL) (r : Record) : WAL :=
  let buf := encodeRecord r
  { file := osWrite w.file w.pos buf
    pos := w.pos + buf.length
    size := w.size + buf.length }

/-- Buffer built by the `WAL.WriteBatch` serialization loop: each record is
laid out with the same per-record format and its own checksum, one after
the other. -/
def batchBuf (rs : List Record) : List Nat :=
  (rs.map encodeRecord).flatten

/-- Embedding of `WAL.WriteBatch` (successful write): one contiguous buffer,
one underlying write call. -/
def WriteBatch (w : WAL) (rs : List Record) : WAL :=
  let buf := batchBuf rs
  { file := osWrite w.file w.pos buf
    pos := w.pos + buf.length
    size := w.size + buf.length }

end WAL

/-- One mutating WAL operation, used to quantify over operation sequences. -/
inductive WalOp where
  | write (r : Record)
  | writeBatch (rs : List Record)
  deriving DecidableEq

/-- Apply a sequence of WAL operations. -/
def applyWalOps (w : WAL) (ops : List WalOp) : WAL :=
  ops.foldl (fun st op => match op with
    | .write r => st.Write r
    | .writeBatch rs => st.WriteBatch rs) w

/-! ## WAL iterator (`Iterator.Next`) -/
/-- Errors surfaced by the WAL iterator. `unexpectedEof` stands for the
`io.EOF` / short-read error a `Read`/`io.ReadFull` call returns when the
file ends mid-record (Go reuses the `io.EOF` value for it). -/
inductive WalErr where
  | invalidChecksum
  | invalidRecord
  | varintOverflow
  | unexpectedEof
  deriving DecidableEq

/-- Embedding of `readUvarint`: `x` and `s` are the accumulator and shift of
the decode loop, `i` counts consumed bytes; arithmetic is `uint64`, hence
the reductions modulo `2 ^ 64`. Returns the value and the byte count. -/
def readUvarintAux : List Nat → Nat → Nat → Nat → Except WalErr (Nat × Nat)
  | [], _, _, _ => .error .unexpectedEof
  | b :: rest, x, s, i =>
    if b < 0x80 then
      if 9 < i ∨ (i = 9 ∧ 1 < b) then .error .varintOverflow
      else .ok ((x ||| (b <<< s)) % 2 ^ 64, i + 1)
    else readUvarintAux rest ((x ||| ((b % 0x80) <<< s)) % 2 ^ 64) (s + 7) (i + 1)

instance {ε α : Type} [DecidableEq ε] [DecidableEq α] : DecidableEq (Except ε α)
  | .error e, .error f => decidable_of_iff (e = f) (by simp)
  | .error _, .ok _ => isFalse (by simp)
  | .ok _, .error _ => isFalse (by simp)
  | .ok a, .ok b => decidable_of_iff (a = b) (by simp)

/-- Embedding of `readUvarint` as called by `Iterator.Next`. -/
def readUvarint (bs : List Nat) : Except WalErr (Nat × Nat) :=
  readUvarintAux bs 0 0 0

/-- Outcome of the parsing phase of `Iterator.Next`, just before the
checksum comparison: the decoded record, its total on-disk size, the stored
checksum and the recomputed checksum. -/
structure ParsedRecord where
  record : Record
  size : Nat
  stored : Nat
  computed : Nat
  deriving DecidableEq

/-- Parsing phase of `Iterator.Next` on the bytes from the current offset:
read the type byte (rejecting unknown types), the two varints, the key,
value and checksum bytes, then re-read the record's prefix and recompute
its CRC32. Stops with `unexpectedEof` where a Go read would fail short. -/
def decodeParts (bs : List Nat) : Except WalErr ParsedRecord :=
  match bs with
  | [] => .error .unexpectedEof
  | t :: rest =>
    if t = TypePut ∨ t = TypeDelete then
      match readUvarint rest with
      | .error e => .error e
      | .ok (keyLen, keyLenSize) =>
        match readUvarint (rest.drop keyLenSize) with
        | .error e => .error e
        | .ok (valueLen, valueLenSize) =>
          let afterLens := rest.drop (keyLenSize + valueLenSize)
          if keyLen ≤ afterLens.length then
            let key := afterLens.take keyLen
            let afterKey := afterLens.drop keyLen
            if valueLen ≤ afterKey.length then
              let value := afterKey.take valueLen
              let afterValue := afterKey.drop valueLen
              if 4 ≤ afterValue.length then
                let checksumBuf := afterValue.take 4
                let recordSize := 1 + keyLenSize + valueLenSize + keyLen + valueLen + 4
                let data := bs.take (recordSize - 4)
                .ok { record := { typ := t, key := key, value := value }
                      size := recordSize
                      stored := readUint32LE checksumBuf
                      computed := crc32 data }
              else .error .unexpectedEof
            else .error .unexpectedEof
          else .error .unexpectedEof
    else .error .invalidRecord

/-- Record decoding of `Iterator.Next`: parse, then compare the recomputed
checksum against the stored one. -/
def decodeRecordFrom (bs : List Nat) : Except WalErr (Record × Nat) :=
  match decodeParts bs with
  | .error e => .error e
  | .ok p => if p.computed ≠ p.stored then .error .invalidChecksum else .ok (p.record, p.size)

/-- Embedding of the WAL `Iterator` state: current offset and the log length
snapshotted at iterator creation (`fileEnd`). -/
structure Iterator where
  offset : Nat
  fileEnd : Nat
  deriving DecidableEq

/-- Embedding of `WAL.NewIterator`: offset 0, bounded by `w.size`. -/
def WAL.NewIterator (w : WAL) : Iterator :=
  { offset := 0, fileEnd := w.size }

/-- Result of one `Iterator.Next` call: end-of-log (`io.EOF` at or past
`fileEnd`), a decode error, or a record. -/
inductive NextResult where
  | eof
  | err (e : WalErr)
  | ok (r : Record)
  deriving DecidableEq

/-- Embedding of `Iterator.Next` against the current file contents: signals
end-of-log at or past `fileEnd`; otherwise decodes one record at `offset`,
advancing the offset by the consumed byte count only on success. -/
def Iterator.Next (it : Iterator) (file : List Nat) : NextResult × Iterator :=
  if it.fileEnd ≤ it.offset then (.eof, it)
  else match decodeRecordFrom (file.drop it.offset) with
    | .error e => (.err e, it)
    | .ok (r, sz) => (.ok r, { offset := it.offset + sz, fileEnd := it.fileEnd })

/-- Terminal signal of a full iteration. -/
inductive ReplayEnd where
  | atEof
  | failed (e : WalErr)
  | outOfFuel
  deriving DecidableEq

/-- Repeatedly call `Iterator.Next`, collecting the records yielded before
the first end-of-log or error signal. Fuel bounds the recursion; every
successful step consumes at least one byte, so `file.length + 1` fuel is
always enough. -/
def collectRecords (file : List Nat) : Iterator → Nat → List Record × ReplayEnd
  | _, 0 => ([], .outOfFuel)
  | it, fuel + 1 =>
    match it.Next file with
    | (.eof, _) => ([], .atEof)
    | (.err e, _) => ([], .failed e)
    | (.ok r, it1) =>
      let rest := collectRecords file it1 fuel
      (r :: rest.1, rest.2)

/-! ## Encode/decode roundtrip lemmas -/
/-- Well-formed record: a record as Go can actually hold it (`Type` a valid
tag byte, keys and values byte slices, slice lengths below `2 ^ 64`). -/
def WFRecord (r : Record) : Prop :=
  (r.typ = TypePut ∨ r.typ = TypeDelete) ∧
  r.key.length < 2 ^ 64 ∧ r.value.length < 2 ^ 64 ∧
  (∀ b ∈ r.key, b < 256) ∧ (∀ b ∈ r.value, b < 256)

instance (r : Record) : Decidable (WFRecord r) := by
  unfold WFRecord; infer_instance

/-! ## ValidFile: the spec's file-shape invariant -/
/-- Rendering of the spec invariant: the file is a concatenation of zero or
more complete records, each carrying its own correct checksum — i.e. it is
the concatenation of the serialized forms of some record list (serialization
embeds the correct checksum by construction). Slice lengths are bounded as
Go slices are. -/
def ValidFile (bs : List Nat) : Prop :=
  ∃ rs : List Record,
    (∀ r ∈ rs, r.key.length < 2 ^ 64 ∧ r.value.length < 2 ^ 64) ∧
    bs = (rs.map encodeRecord).flatten

/-- Structural parse of one record-shaped chunk: like the iterator's parse
but without the type-byte gate and without checksum verification; used only
to decide `ValidFile`. -/
def parseChunk (bs : List Nat) : Option (Record × Nat) :=
  match bs with
  | [] => none
  | t :: rest =>
    match readUvarint rest with
    | .error _ => none
    | .ok (keyLen, keyLenSize) =>
      match readUvarint (rest.drop keyLenSize) with
      | .error _ => none
      | .ok (valueLen, valueLenSize) =>
        let afterLens := rest.drop (keyLenSize + valueLenSize)
        if keyLen ≤ afterLens.length then
          let key := afterLens.take keyLen
          let afterKey := afterLens.drop keyLen
          if valueLen ≤ afterKey.length then
            let value := afterKey.take valueLen
            if 4 ≤ (afterKey.drop valueLen).length then
              some ({ typ := t, key := key, value := value },
                1 + keyLenSize + valueLenSize + keyLen + valueLen + 4)
            else none
          else none
        else none

/-- Greedy decision procedure for `ValidFile`: parse a chunk, check that the
consumed prefix re-serializes to itself (which verifies its checksum), and
recurse on the remainder. -/
def isConcatAux : Nat → List Nat → Bool
  | _, [] => true
  | 0, _ :: _ => false
  | fuel + 1, b :: bs =>
    match parseChunk (b :: bs) with
    | none => false
    | some (r, sz) =>
      decide ((b :: bs).take sz = encodeRecord r) && isConcatAux fuel ((b :: bs).drop sz)

/-- Fueled entry point of the `ValidFile` decision procedure. -/
def isConcat (bs : List Nat) : Bool :=
  isConcatAux (bs.length + 1) bs

/-- Go slice-length bounds for the records of one WAL operation. -/
def OpBounded : WalOp → Prop
  | .write r => r.key.length < 2 ^ 64 ∧ r.value.length < 2 ^ 64
  | .writeBatch rs => ∀ r ∈ rs, r.key.length < 2 ^ 64 ∧ r.value.length < 2 ^ 64

instance (op : WalOp) : Decidable (OpBounded op) := by
  cases op <;> (unfold OpBounded; infer_instance)

/-! ## Skip list (`skiplist.go`)

The pointer graph is embedded as an arena: nodes live in a list addressed by
stable indices, slot 0 being the sentinel head, and every Go `*Node` becomes
an `Option Nat` (`none` = nil). Go's pluggable `Comparator` must be a strict
total order; it is modelled as the canonical comparison of a `LinearOrder`
on the key type, which is exactly what the shipped `IntComparator`,
`StringComparator` and `BytesComparator` compute. The level drawn by
`randomLevel` (a geometric draw in `1..maxLevel`) enters `Insert` as an
explicit argument. -/
/-- Embedding of `maxLevel = 32`. -/
def maxLevel : Nat := 32

/-- Arena pointer: `none` is Go's nil pointer. -/
abbrev Ptr := Option Nat

/-- Embedding of skiplist `Node`: key and value (absent only on the sentinel
head) and one forward pointer per level the node participates in. -/
structure SLNode (K V : Type) where
  key : Option K
  value : Option V
  forward : List Ptr
  deriving DecidableEq

/-- Embedding of `SkipList`: the node arena (slot 0 = sentinel head), the
current active level and the element count. -/
structure SkipList (K V : Type) where
  nodes : List (SLNode K V)
  level : Nat
  size : Nat
  deriving DecidableEq

/-- Embedding of the comparators of `comparator.go` over a linearly ordered
key type: negative for `a < b`, positive for `a > b`, zero on equality. -/
def compareKeys {K : Type} [LinearOrder K] (a b : K) : Int :=
  if a < b then -1 else if a > b then 1 else 0

namespace SkipList

variable {K V : Type} [LinearOrder K] [DecidableEq V]

/-- Arena read (out-of-range reads yield a dummy node; they never occur on
states satisfying the representation invariant). -/
def getNode (sl : SkipList K V) (x : Nat) : SLNode K V :=
  sl.nodes.getD x ⟨none, none, []⟩

/-- The `x.forward[i]` pointer. -/
def fwd (sl : SkipList K V) (x i : Nat) : Ptr :=
  (getNode sl x).forward.getD i none

/-- The `x.key` field. -/
def keyAt (sl : SkipList K V) (x : Nat) : Option K :=
  (getNode sl x).key

/-- The `x.value` field. -/
def valueAt (sl : SkipList K V) (x : Nat) : Option V :=
  (getNode sl x).value

/-- Number of levels node `x` participates in (`len(x.forward)`). -/
def height (sl : SkipList K V) (x : Nat) : Nat :=
  (getNode sl x).forward.length

/-- The freshly constructed list: a head node present at all `maxLevel`
levels, active level 1, no elements. -/
def mkSkipList : SkipList K V :=
  { nodes := [⟨none, none, List.replicate maxLevel none⟩], level := 1, size := 0 }

/-- Embedding of `NewSkipList`: panics (modelled as `Except.error` with the
panic message) exactly when the comparator argument is nil, and otherwise
returns the fresh list. The comparator value itself is not stored: list
operations use the canonical comparison of the key order. -/
def NewSkipList (cmp : Option (K → K → Int)) : Except String (SkipList K V) :=
  match cmp with
  | none => .error "Comparator can not be nil"
  | some _ => .ok mkSkipList

/-- Inner loop of the descent: starting at `x`, advance along level `i`
while the next node exists and its key compares LESS than `key`. Fuel
bounds the walk (`sl.nodes.length` always suffices on invariant-satisfying
states); a forward node without a key (impossible on invariant-satisfying
states, and a comparator fault in Go) stops the walk. -/
def advance (sl : SkipList K V) (key : K) (i : Nat) : Nat → Nat → Nat
  | 0, x => x
  | fuel + 1, x =>
    match fwd sl x i with
    | none => x
    | some y =>
      match keyAt sl y with
      | none => x
      | some ky => if compareKeys ky key < 0 then advance sl key i fuel y else x

/-- Descent of `Insert`/`Delete` building the `update` array: processes
levels `n-1` down to `0` starting from node `x` (the head on the outer
call), recording the last node visited before each drop; position `j` of
the result is `update[j]`. -/
def descend (sl : SkipList K V) (key : K) : Nat → Nat → List Nat
  | 0, _ => []
  | n + 1, x =>
    let u := advance sl key n sl.nodes.length x
    descend sl key n u ++ [u]

/-- Access to the `update` array: entries above the built range read as the
head (index 0), exactly as Go sets `update[i] = sl.head` for promoted
levels. -/
def updAt (updates : List Nat) (i : Nat) : Nat :=
  updates.getD i 0

/-- Descent of `Find`: the same walk as `descend`, keeping only the final
position. -/
def findPred (sl : SkipList K V) (key : K) : Nat → Nat → Nat
  | 0, x => x
  | n + 1, x => findPred sl key n (advance sl key n sl.nodes.length x)

/-- Embedding of `SkipList.Find`: descend, then report the value of the
immediate level-0 successor when its key compares EQUAL. Go returns
`(value, true)` / `(nil, false)`; here presence is the `Option`. -/
def Find (sl : SkipList K V) (key : K) : Option V :=
  let x := findPred sl key sl.level 0
  match fwd sl x 0 with
  | none => none
  | some y =>
    match keyAt sl y with
    | none => none
    | some ky => if compareKeys ky key = 0 then valueAt sl y else none

/-- In-place value replacement (the `x.value = value` update branch of
`Insert`). -/
def setValue (sl : SkipList K V) (y : Nat) (v : V) : SkipList K V :=
  { sl with nodes := sl.nodes.set y { sl.nodes.getD y ⟨none, none, []⟩ with value := some v } }

/-- Single forward-pointer assignment `x.forward[i] = p`. -/
def setFwd (sl : SkipList K V) (x i : Nat) (p : Ptr) : SkipList K V :=
  { sl with nodes := sl.nodes.set x { sl.nodes.getD x ⟨none, none, []⟩ with
      forward := (sl.nodes.getD x ⟨none, none, []⟩).forward.set i p } }

/-- Splice loop of `Insert`: for each level `i` below the drawn level,
`newNode.forward[i] = update[i].forward[i]; update[i].forward[i] = newNode`,
reading from the current state as Go reads live memory. -/
def spliceLoop (updates : List Nat) (y : Nat) : SkipList K V → Nat → Nat → SkipList K V
  | st, _, 0 => st
  | st, i, t + 1 =>
    let st1 := setFwd st y i (fwd st (updAt updates i) i)
    let st2 := setFwd st1 (updAt updates i) i (some y)
    spliceLoop updates y st2 (i + 1) t

/-- Embedding of `SkipList.Insert` with the level drawn by `randomLevel`
passed explicitly (`randomLevel` always returns a level in `1..maxLevel`).
If the immediate level-0 successor has an EQUAL key its value is replaced
in place; otherwise a new node of `lvl` levels is allocated and spliced in
after `update[i]` at every level below `lvl`, raising the active level
first when `lvl` exceeds it. -/
def Insert (sl : SkipList K V) (key : K) (value : V) (lvl : Nat) : SkipList K V :=
  let updates := descend sl key sl.level 0
  let x := updAt updates 0
  let hit : Option Nat :=
    match fwd sl x 0 with
    | none => none
    | some y =>
      match keyAt sl y with
      | none => none
      | some ky => if compareKeys ky key = 0 then some y else none
  match hit with
  | some y => setValue sl y value
  | none =>
    let level1 := if lvl > sl.level then lvl else sl.level
    let newIdx := sl.nodes.length
    let st0 : SkipList K V :=
      { nodes := sl.nodes ++ [⟨some key, some value, List.replicate lvl none⟩]
        level := level1
        size := sl.size }
    let st1 := spliceLoop updates newIdx st0 0 lvl
    { st1 with size := sl.size + 1 }

/-- Unlink loop of `Delete`: walks levels upward from 0, stopping as soon as
`update[i].forward[i]` is not the target node, and otherwise bypassing the
target. -/
def unlinkLoop (updates : List Nat) (y : Nat) : SkipList K V → Nat → Nat → SkipList K V
  | st, _, 0 => st
  | st, i, t + 1 =>
    if fwd st (updAt updates i) i = some y then
      unlinkLoop updates y (setFwd st (updAt updates i) i (fwd st y i)) (i + 1) t
    else st

/-- Active-level shrink loop of `Delete`: decrement while the head has no
successor at the topmost level (never below 1). -/
def shrinkLevel : SkipList K V → Nat → SkipList K V
  | st, 0 => st
  | st, t + 1 =>
    if 1 < st.level ∧ fwd st 0 (st.level - 1) = none then
      shrinkLevel { st with level := st.level - 1 } t
    else st

/-- Embedding of `SkipList.Delete`: descend, check that the immediate
level-0 successor carries an EQUAL key (otherwise return `false` with the
state untouched), then unlink it level by level, shrink the active level
and decrement the count. -/
def Delete (sl : SkipList K V) (key : K) : Bool × SkipList K V :=
  let updates := descend sl key sl.level 0
  let x := updAt updates 0
  match fwd sl x 0 with
  | none => (false, sl)
  | some y =>
    match keyAt sl y with
    | none => (false, sl)
    | some ky =>
      if compareKeys ky key ≠ 0 then (false, sl)
      else
        let st1 := unlinkLoop updates y sl 0 sl.level
        let st2 := shrinkLevel st1 st1.level
        (true, { st2 with size := st2.size - 1 })

/-- Embedding of `SkipList.Size`. -/
def Size (sl : SkipList K V) : Nat :=
  sl.size

/-- Level-0 walk of the iterator (`NewIterator` then repeatedly `Key`,
`Value`, `Next` while `Valid`), collecting the visited nodes' keys and
values. Fuel bounds the walk; `sl.nodes.length` suffices on
invariant-satisfying states. -/
def iterToList (sl : SkipList K V) : Ptr → Nat → List (Option K × Option V)
  | _, 0 => []
  | none, _ + 1 => []
  | some x, fuel + 1 => (keyAt sl x, valueAt sl x) :: iterToList sl (fwd sl x 0) fuel

/-- Full ascending iteration from a new iterator (`iter := sl.NewIterator()`
starts at `sl.head.forward[0]`). -/
def iterate (sl : SkipList K V) : List (Option K × Option V) :=
  iterToList sl (fwd sl 0 0) sl.nodes.length

end SkipList

namespace SkipList

variable {K V : Type}

/-! ### Chains of forward links -/
/-- The nodes `l`, entered from node `s` at level `i`, form a linked chain:
each node's level-`i` forward pointer is the next node, and the last one
(or `s` when `l` is empty) points to `m`. -/
def Links (sl : SkipList K V) (i s : Nat) (l : List Nat) (m : Ptr) : Prop :=
  List.Chain (fun a b => fwd sl a i = some b) s l ∧ fwd sl (l.getLastD s) i = m

/-- Kernel-reducible decidability of `List.Chain` (the library instance is
built with `simp` and does not evaluate). -/
def chainDec {α : Type} {R : α → α → Prop} [DecidableRel R] :
    ∀ (a : α) (l : List α), Decidable (List.Chain R a l)
  | _, [] => isTrue List.Chain.nil
  | a, b :: l =>
    haveI : Decidable (List.Chain R b l) := chainDec b l
    decidable_of_iff (R a b ∧ List.Chain R b l) List.chain_cons.symm

instance (priority := 1001) {α : Type} {R : α → α → Prop} [DecidableRel R] (a : α)
    (l : List α) : Decidable (List.Chain R a l) :=
  chainDec a l

instance (priority := 1001) {α : Type} {R : α → α → Prop} [DecidableRel R] :
    ∀ (l : List α), Decidable (List.Chain' R l)
  | [] => isTrue trivial
  | a :: l => chainDec a l

instance (sl : SkipList K V) (i s : Nat) (l : List Nat) (m : Ptr) :
    Decidable (Links sl i s l m) :=
  inferInstanceAs (Decidable (List.Chain (fun a b => fwd sl a i = some b) s l ∧
    fwd sl (l.getLastD s) i = m))

/-! ### The representation invariant -/
/-- The state `sl` represents the association sequence given by the arena
indices `tour` (the level-0 chain) bearing the strictly increasing keys
`ks`: slot 0 is a keyless head of full height; every `tour` node is a
non-head arena slot with a value, participating in at least level 0 and at
most the active level; `size` counts the tour; and for every level `i` the
level-`i` chain from the head consists exactly of the tour nodes of height
above `i`, in tour order. The active level is between 1 and `maxLevel` and
is witnessed by a head successor unless it is 1. -/
def Represents [LinearOrder K] (sl : SkipList K V) (tour : List Nat) (ks : List K) : Prop :=
  0 < sl.nodes.length ∧
  keyAt sl 0 = none ∧
  height sl 0 = maxLevel ∧
  tour.map (keyAt sl) = ks.map some ∧
  List.Chain' (· < ·) ks ∧
  (∀ x ∈ tour, x ≠ 0 ∧ x < sl.nodes.length ∧ valueAt sl x ≠ none ∧
    1 ≤ height sl x ∧ height sl x ≤ sl.level) ∧
  1 ≤ sl.level ∧ sl.level ≤ maxLevel ∧
  sl.size = tour.length ∧
  (∀ i < maxLevel, Links sl i 0 (tour.filter (fun x => decide (i < height sl x))) none) ∧
  (sl.level = 1 ∨ fwd sl 0 (sl.level - 1) ≠ none)

instance [LinearOrder K] [DecidableEq V] (sl : SkipList K V) (tour : List Nat)
    (ks : List K) : Decidable (Represents sl tour ks) :=
  inferInstanceAs (Decidable (
    0 < sl.nodes.length ∧
    keyAt sl 0 = none ∧
    height sl 0 = maxLevel ∧
    tour.map (keyAt sl) = ks.map some ∧
    List.Chain' (· < ·) ks ∧
    (∀ x ∈ tour, x ≠ 0 ∧ x < sl.nodes.length ∧ valueAt sl x ≠ none ∧
      1 ≤ height sl x ∧ height sl x ≤ sl.level) ∧
    1 ≤ sl.level ∧ sl.level ≤ maxLevel ∧
    sl.size = tour.length ∧
    (∀ i < maxLevel, Links sl i 0 (tour.filter (fun x => decide (i < height sl x))) none) ∧
    (sl.level = 1 ∨ fwd sl 0 (sl.level - 1) ≠ none)))

/-- A state is well-formed when it represents some association sequence. -/
def Inv [LinearOrder K] (sl : SkipList K V) : Prop :=
  ∃ tour ks, Represents sl tour ks

/-! ### Facts derived from the representation invariant -/
/-- The tour nodes of height above `i`, i.e. the level-`i` chain contents. -/
def Fil (sl : SkipList K V) (i : Nat) (l : List Nat) : List Nat :=
  l.filter (fun z => decide (i < height sl z))

/-- The level-`j` predecessor of the search key: the last node of the
level-`j` chain whose key is below the key (the head, index 0, when there is
none). -/
def predAt (sl : SkipList K V) (A : List Nat) (j : Nat) : Nat :=
  (Fil sl j A).getLastD 0

/-! ### Walks along chains, operation sequences -/
/-- Level-`i` walk from a pointer, collecting the visited node indices (the
iterator traversal pattern applied at level `i`). -/
def chainToList (sl : SkipList K V) (i : Nat) : Ptr → Nat → List Nat
  | _, 0 => []
  | none, _ + 1 => []
  | some x, fuel + 1 => x :: chainToList sl i (fwd sl x i) fuel

/-- One skip-list operation: an insert at a drawn level, or a delete. -/
inductive SLOp (K V : Type) where
  | put (k : K) (v : V) (lvl : Nat)
  | del (k : K)

/-- The level of a `put` is a possible `randomLevel` outcome. -/
def SLOpOK {K V : Type} : SLOp K V → Prop
  | .put _ _ lvl => 1 ≤ lvl ∧ lvl ≤ maxLevel
  | .del _ => True

instance {K V : Type} (op : SLOp K V) : Decidable (SLOpOK op) :=
  match op with
  | .put _ _ lvl => inferInstanceAs (Decidable (1 ≤ lvl ∧ lvl ≤ maxLevel))
  | .del _ => inferInstanceAs (Decidable True)

/-- Apply one operation. -/
def applySLOp [LinearOrder K] [DecidableEq V] (sl : SkipList K V) : SLOp K V → SkipList K V
  | .put k v lvl => Insert sl k v lvl
  | .del k => (Delete sl k).2

/-- Apply a sequence of operations to a freshly created list. -/
def applySLOps [LinearOrder K] [DecidableEq V] (ops : List (SLOp K V)) : SkipList K V :=
  ops.foldl applySLOp mkSkipList

end SkipList

/-! ## MemTable (`memtable.go`) -/
/-- Embedding of `MemTable`: the index and the log handle. Keys and values
are byte strings. -/
structure MemTable where
  skipList : SkipList (List Nat) (List Nat)
  log : WAL

/-- Outcome of `memtable.New`: Go declares `(*MemTable, error)`, but the
call can also panic; the panic is modeled as its own outcome carrying the
message. -/
inductive NewOutcome where
  | ok (m : MemTable)
  | ioError
  | crashed (msg : String)

/-- The replay loop of `memtable.New` (dead code behind the panic): apply
each record decoded before the first iterator error to the skip list in
file order — `Put` inserts at the next drawn level, `Delete` deletes,
other type bytes are skipped. `lvls` abstracts the `randomLevel` draws,
fuel bounds the loop (`file.length + 1` always suffices). -/
def replayLoop (file : List Nat) (lvls : Nat → Nat) :
    SkipList (List Nat) (List Nat) → Iterator → Nat → Nat →
    SkipList (List Nat) (List Nat)
  | list, _, _, 0 => list
  | list, it, n, fuel + 1 =>
    match it.Next file with
    | (.eof, _) => list
    | (.err _, _) => list
    | (.ok r, it1) =>
      if r.typ = TypePut then
        replayLoop file lvls (list.Insert r.key r.value (lvls n)) it1 (n + 1) fuel
      else if r.typ = TypeDelete then
        replayLoop file lvls (list.Delete r.key).2 it1 (n + 1) fuel
      else replayLoop file lvls list it1 (n + 1) fuel

/-- Embedding of `memtable.New`: `openResult` abstracts the `wal.Open`
call (an I/O error or the opened handle). The comparator passed to
`NewSkipList` is nil, exactly as in the source, so the replay below it is
unreachable. -/
def memtableNew (openResult : Except Unit WAL) (lvls : Nat → Nat) : NewOutcome :=
  match openResult with
  | .error _ => .ioError
  | .ok log =>
    match SkipList.NewSkipList (K := List Nat) (V := List Nat) none with
    | .error msg => .crashed msg
    | .ok list =>
      .ok ⟨replayLoop log.file lvls list log.NewIterator 0 (log.file.length + 1), log⟩

/-- Embedding of `MemTable.Put`: WAL write first, index second.
`writeFailure` abstracts a failing underlying write (`some w`: the write
fails, leaving the log in state `w`); `lvl` is the `randomLevel` draw of
the insert. The `Except` carries the memtable as the call leaves it. -/
def MemTable.Put (m : MemTable) (key value : List Nat) (lvl : Nat)
    (writeFailure : Option WAL) : Except MemTable MemTable :=
  match writeFailure with
  | some failedLog => .error ⟨m.skipList, failedLog⟩
  | none => .ok ⟨m.skipList.Insert key value lvl, m.log.Write ⟨TypePut, key, value⟩⟩

/-- Embedding of `MemTable.Delete` (the record's value is the nil slice). -/
def MemTable.Delete (m : MemTable) (key : List Nat)
    (writeFailure : Option WAL) : Except MemTable MemTable :=
  match writeFailure with
  | some failedLog => .error ⟨m.skipList, failedLog⟩
  | none => .ok ⟨(m.skipList.Delete key).2, m.log.Write ⟨TypeDelete, key, []⟩⟩

/-- One memtable call with its write-failure oracle. -/
inductive MemOp where
  | put (key value : List Nat) (lvl : Nat) (writeFailure : Option WAL)
  | del (key : List Nat) (writeFailure : Option WAL)

/-- State of the memtable after one call (on error, Go keeps the receiver;
the `Except` payload is exactly that state). -/
def applyMemOp (m : MemTable) : MemOp → MemTable
  | .put k v lvl wf =>
    match MemTable.Put m k v lvl wf with
    | .ok m1 => m1
    | .error m1 => m1
  | .del k wf =>
    match MemTable.Delete m k wf with
    | .ok m1 => m1
    | .error m1 => m1

def applyMemOps (m : MemTable) : List MemOp → MemTable
  | [] => m
  | op :: t => applyMemOps (applyMemOp m op) t

/-- The skip-list operation a memtable call performs, when its WAL write
succeeds. -/
def successfulSLOp : MemOp → Option (SkipList.SLOp (List Nat) (List Nat))
  | .put k v lvl none => some (.put k v lvl)
  | .put _ _ _ (some _) => none
  | .del k none => some (.del k)
  | .del _ (some _) => none

/-- The WAL operation sequence of the spec's recovery scenario:
Put(a,1), Put(b,2), Delete(a), Put(a,3). -/
def recoveryOps : List WalOp :=
  [.write ⟨TypePut, [97], [1]⟩, .write ⟨TypePut, [98], [2]⟩,
   .write ⟨TypeDelete, [97], []⟩, .write ⟨TypePut, [97], [3]⟩]

/-- The WAL file contents after writing the recovery scenario. -/
def recoveryFile : List Nat :=
  (applyWalOps (WAL.Open []) recoveryOps).file

/-! ## Theorems -/

theorem encodeVarintAux_byte_lt : ∀ (fuel x : Nat), ∀ b ∈ encodeVarintAux fuel x, b < 256 := by
  intro fuel
  induction fuel with
  | zero =>
    intro x b hb
    simp only [encodeVarintAux, List.mem_singleton] at hb
    omega
  | succ fuel ih =>
    intro x b hb
    rw [encodeVarintAux] at hb
    split at hb
    · simp only [List.mem_singleton] at hb
      omega
    · rcases List.mem_cons.mp hb with h | h
      · omega
      · exact ih (x / 0x80) b h

theorem encodeVarint_byte_lt (x : Nat) : ∀ b ∈ encodeVarint x, b < 256 :=
  encodeVarintAux_byte_lt 10 x

theorem encodeVarint_ne_nil (x : Nat) : encodeVarint x ≠ [] := by
  rw [encodeVarint, encodeVarintAux]
  split <;> simp

theorem lor_shiftLeft_eq_add {a : Nat} (b s : Nat) (h : a < 2 ^ s) :
    a ||| (b <<< s) = 2 ^ s * b + a := by
  rw [Nat.shiftLeft_eq, Nat.mul_comm b (2 ^ s), Nat.lor_comm]
  exact (Nat.mul_add_lt_is_or h b).symm

theorem readUvarintAux_encodeAux : ∀ (fuel x acc s i : Nat) (rest : List Nat),
    s = 7 * i → i + fuel = 10 → i ≤ 9 →
    x < 2 ^ (64 - s) → acc < 2 ^ s →
    readUvarintAux (encodeVarintAux fuel x ++ rest) acc s i =
      .ok (2 ^ s * x + acc, i + (encodeVarintAux fuel x).length) := by
  intro fuel
  induction fuel with
  | zero =>
    intro x acc s i rest _ hif hi _ _
    omega
  | succ fuel ih =>
    intro x acc s i rest hs hif hi hx hacc
    rw [encodeVarintAux]
    split
    · rename_i hlt
      have hsum : 2 ^ s * x + acc < 2 ^ 64 := by
        calc 2 ^ s * x + acc < 2 ^ s * x + 2 ^ s := by omega
        _ = 2 ^ s * (x + 1) := by ring
        _ ≤ 2 ^ s * 2 ^ (64 - s) := by
          have : x + 1 ≤ 2 ^ (64 - s) := hx
          exact Nat.mul_le_mul_left _ this
        _ = 2 ^ 64 := by
          rw [← pow_add]
          congr 1
          omega
      have hguard : ¬(9 < i ∨ (i = 9 ∧ 1 < x)) := by
        rcases Nat.lt_or_ge i 9 with h9 | h9
        · omega
        · have hi9 : i = 9 := by omega
          subst hi9
          have : (64 : Nat) - s = 1 := by omega
          rw [this] at hx
          omega
      simp only [List.singleton_append, readUvarintAux, if_pos hlt, if_neg hguard,
        List.length_singleton]
      rw [lor_shiftLeft_eq_add x s hacc, Nat.mod_eq_of_lt hsum]
    · rename_i hge
      push_neg at hge
      have hile : i ≤ 8 := by
        by_contra hgt
        have hi9 : i = 9 := by omega
        subst hi9
        have : (64 : Nat) - s = 1 := by omega
        rw [this] at hx
        omega
      have hs7 : s + 7 ≤ 63 := by omega
      have hb : ¬(x % 0x80 + 0x80 < 0x80) := by omega
      have hbm : (x % 0x80 + 0x80) % 0x80 = x % 0x80 := by omega
      have haccb : acc ||| ((x % 0x80) <<< s) = 2 ^ s * (x % 0x80) + acc :=
        lor_shiftLeft_eq_add _ s hacc
      have hacc7 : 2 ^ s * (x % 0x80) + acc < 2 ^ (s + 7) := by
        have h1 : x % 0x80 ≤ 127 := by omega
        calc 2 ^ s * (x % 0x80) + acc < 2 ^ s * (x % 0x80) + 2 ^ s := by omega
        _ = 2 ^ s * (x % 0x80 + 1) := by ring
        _ ≤ 2 ^ s * 128 := Nat.mul_le_mul_left _ (by omega)
        _ = 2 ^ (s + 7) := by rw [pow_add]; norm_num
      have haccsmall : 2 ^ s * (x % 0x80) + acc < 2 ^ 64 := by
        calc 2 ^ s * (x % 0x80) + acc < 2 ^ (s + 7) := hacc7
        _ ≤ 2 ^ 64 := Nat.pow_le_pow_right (by omega) (by omega)
      have hxdiv : x / 0x80 < 2 ^ (64 - (s + 7)) := by
        rw [Nat.div_lt_iff_lt_mul (by omega : (0:Nat) < 0x80)]
        calc x < 2 ^ (64 - s) := hx
        _ = 2 ^ (64 - (s + 7)) * 0x80 := by
          rw [show (0x80 : Nat) = 2 ^ 7 by norm_num, ← pow_add]
          congr 1
          omega
      simp only [List.cons_append, readUvarintAux, if_neg hb, hbm, haccb,
        Nat.mod_eq_of_lt haccsmall, List.append_eq]
      rw [ih (x / 0x80) _ (s + 7) (i + 1) rest (by omega) (by omega) (by omega)
        hxdiv hacc7]
      have harith : 2 ^ (s + 7) * (x / 0x80) + (2 ^ s * (x % 0x80) + acc) =
          2 ^ s * x + acc := by
        have h128 : (2:Nat) ^ (s + 7) = 2 ^ s * 0x80 := by rw [pow_add]; norm_num
        have hdm : 0x80 * (x / 0x80) + x % 0x80 = x := Nat.div_add_mod x 0x80
        calc 2 ^ (s + 7) * (x / 0x80) + (2 ^ s * (x % 0x80) + acc)
            = 2 ^ s * (0x80 * (x / 0x80) + x % 0x80) + acc := by rw [h128]; ring
        _ = 2 ^ s * x + acc := by rw [hdm]
      rw [harith, List.length_cons]
      ring_nf

theorem readUvarint_encode (x : Nat) (rest : List Nat) (hx : x < 2 ^ 64) :
    readUvarint (encodeVarint x ++ rest) = .ok (x, (encodeVarint x).length) := by
  have := readUvarintAux_encodeAux 10 x 0 0 0 rest (by omega) (by omega) (by omega)
    (by simpa using hx) (by norm_num)
  simpa [encodeVarint] using this

theorem crc32Step_lt {c : Nat} (h : c < 2 ^ 32) : crc32Step c < 2 ^ 32 := by
  unfold crc32Step
  split
  · exact Nat.xor_lt_two_pow (by omega) (by norm_num)
  · omega

theorem crc32Step_iter_lt {c : Nat} (n : Nat) (h : c < 2 ^ 32) :
    crc32Step^[n] c < 2 ^ 32 := by
  induction n generalizing c with
  | zero => simpa using h
  | succ n ihn =>
    rw [Function.iterate_succ_apply]
    exact ihn (crc32Step_lt h)

theorem crc32Update_lt {c b : Nat} (hc : c < 2 ^ 32) (hb : b < 256) :
    crc32Update c b < 2 ^ 32 :=
  crc32Step_iter_lt 8 (Nat.xor_lt_two_pow hc (by omega))

theorem crc32_foldl_lt : ∀ (bs : List Nat) (c : Nat), (∀ b ∈ bs, b < 256) →
    c < 2 ^ 32 → bs.foldl crc32Update c < 2 ^ 32 := by
  intro bs
  induction bs with
  | nil => intro c _ hc; simpa using hc
  | cons a l ihl =>
    intro c h hc
    rw [List.foldl_cons]
    exact ihl _ (fun b hb => h b (List.mem_cons_of_mem a hb))
      (crc32Update_lt hc (h a (List.mem_cons_self a l)))

theorem crc32_lt (bs : List Nat) (h : ∀ b ∈ bs, b < 256) : crc32 bs < 2 ^ 32 := by
  unfold crc32
  exact Nat.xor_lt_two_pow (crc32_foldl_lt bs _ h (by norm_num)) (by norm_num)

theorem readUint32LE_putUint32LE {x : Nat} (h : x < 2 ^ 32) :
    readUint32LE (putUint32LE x) = x := by
  simp only [putUint32LE, readUint32LE, List.getD_cons_zero, List.getD_cons_succ]
  omega

theorem putUint32LE_length (x : Nat) : (putUint32LE x).length = 4 := rfl

theorem putUint32LE_byte_lt (x : Nat) : ∀ b ∈ putUint32LE x, b < 256 := by
  intro b hb
  simp only [putUint32LE, List.mem_cons, List.not_mem_nil, or_false] at hb
  rcases hb with h | h | h | h <;> omega

/-- Every byte of the serialized form of a well-formed record is a byte. -/
theorem encodeRecord_byte_lt (r : Record) (h : WFRecord r) :
    ∀ b ∈ encodeRecord r, b < 256 := by
  obtain ⟨htyp, _, _, hkb, hvb⟩ := h
  intro b hb
  simp only [encodeRecord] at hb
  rcases List.mem_append.mp hb with h | h
  · rcases List.mem_cons.mp h with h1 | h1
    · rcases htyp with ht | ht <;> rw [h1, ht] <;> norm_num [TypePut, TypeDelete]
    · rcases List.mem_append.mp h1 with h2 | h2
      · rcases List.mem_append.mp h2 with h3 | h3
        · rcases List.mem_append.mp h3 with h4 | h4
          · exact encodeVarint_byte_lt _ b h4
          · exact encodeVarint_byte_lt _ b h4
        · exact hkb b h3
      · exact hvb b h2
  · exact putUint32LE_byte_lt _ b h

theorem drop_len_two {α : Type} (l₁ l₂ l₃ : List α) :
    (l₁ ++ (l₂ ++ l₃)).drop (l₁.length + l₂.length) = l₃ := by
  rw [← List.append_assoc]
  exact List.drop_left' (by simp)

theorem take_record_prefix {α : Type} (t : α) (l₁ l₂ l₃ l₄ l₅ : List α) :
    (t :: (l₁ ++ (l₂ ++ (l₃ ++ (l₄ ++ l₅))))).take
      (1 + l₁.length + l₂.length + l₃.length + l₄.length + 4 - 4) =
      t :: (l₁ ++ l₂ ++ l₃ ++ l₄) := by
  have hn : 1 + l₁.length + l₂.length + l₃.length + l₄.length + 4 - 4 =
      (t :: (l₁ ++ l₂ ++ l₃ ++ l₄)).length := by
    simp [List.length_append]
    omega
  have hl : t :: (l₁ ++ (l₂ ++ (l₃ ++ (l₄ ++ l₅)))) =
      (t :: (l₁ ++ l₂ ++ l₃ ++ l₄)) ++ l₅ := by
    simp [List.append_assoc]
  rw [hn, hl, List.take_left]

/-- Length of a record's serialized form. -/
theorem encodeRecord_length (r : Record) :
    (encodeRecord r).length = 1 + (encodeVarint r.key.length).length +
      (encodeVarint r.value.length).length + r.key.length + r.value.length + 4 := by
  simp only [encodeRecord, List.length_append, List.length_cons, putUint32LE_length]
  omega

/-- Parsing the serialized form of a well-formed record recovers the record,
its exact byte count, and matching stored/recomputed checksums, regardless of
what bytes follow. -/
theorem decodeParts_encode (r : Record) (rest : List Nat) (h : WFRecord r) :
    decodeParts (encodeRecord r ++ rest) =
      .ok { record := r
            size := (encodeRecord r).length
            stored := crc32 (r.typ :: (encodeVarint r.key.length ++
              encodeVarint r.value.length ++ r.key ++ r.value))
            computed := crc32 (r.typ :: (encodeVarint r.key.length ++
              encodeVarint r.value.length ++ r.key ++ r.value)) } := by
  obtain ⟨htyp, hkl, hvl, hkb, hvb⟩ := h
  have hbody : ∀ b ∈ (r.typ :: (encodeVarint r.key.length ++
      encodeVarint r.value.length ++ r.key ++ r.value)), b < 256 := by
    intro b hb
    refine encodeRecord_byte_lt r ⟨htyp, hkl, hvl, hkb, hvb⟩ b ?_
    simp only [encodeRecord, List.mem_append, List.mem_cons] at hb ⊢
    tauto
  have hcrc : crc32 (r.typ :: (encodeVarint r.key.length ++
      encodeVarint r.value.length ++ r.key ++ r.value)) < 2 ^ 32 :=
    crc32_lt _ hbody
  have hbs : encodeRecord r ++ rest =
      r.typ :: (encodeVarint r.key.length ++ (encodeVarint r.value.length ++
        (r.key ++ (r.value ++ (putUint32LE (crc32 (r.typ :: (encodeVarint r.key.length ++
          encodeVarint r.value.length ++ r.key ++ r.value))) ++ rest))))) := by
    simp [encodeRecord, List.append_assoc]
  rw [hbs]
  simp only [decodeParts, if_pos htyp, readUvarint_encode _ _ hkl]
  rw [List.drop_left]
  simp only [readUvarint_encode _ _ hvl]
  rw [drop_len_two]
  have hlen1 : r.key.length ≤ (r.key ++ (r.value ++ (putUint32LE (crc32 (r.typ ::
      (encodeVarint r.key.length ++ encodeVarint r.value.length ++ r.key ++ r.value))) ++
      rest))).length := by
    simp [List.length_append]
  rw [if_pos hlen1, List.take_left, List.drop_left]
  have hlen2 : r.value.length ≤ (r.value ++ (putUint32LE (crc32 (r.typ ::
      (encodeVarint r.key.length ++ encodeVarint r.value.length ++ r.key ++ r.value))) ++
      rest)).length := by
    simp [List.length_append]
  rw [if_pos hlen2, List.take_left, List.drop_left]
  have hlen3 : 4 ≤ ((putUint32LE (crc32 (r.typ :: (encodeVarint r.key.length ++
      encodeVarint r.value.length ++ r.key ++ r.value)))) ++ rest).length := by
    simp [List.length_append, putUint32LE_length]
  rw [if_pos hlen3, List.take_left' (putUint32LE_length _), take_record_prefix,
    readUint32LE_putUint32LE hcrc]
  rw [encodeRecord_length]

/-- Record decoding of a well-formed record's bytes succeeds and consumes
exactly the record's serialized length. -/
theorem decodeRecordFrom_encode (r : Record) (rest : List Nat) (h : WFRecord r) :
    decodeRecordFrom (encodeRecord r ++ rest) = .ok (r, (encodeRecord r).length) := by
  rw [decodeRecordFrom, decodeParts_encode r rest h]
  simp

/-! ## Write-path lemmas -/
/-- Writing a concatenated buffer at an offset equals writing its two halves
one after the other. -/
theorem osWrite_append (f : List Nat) (pos : Nat) (b1 b2 : List Nat) :
    osWrite f pos (b1 ++ b2) = osWrite (osWrite f pos b1) (pos + b1.length) b2 := by
  unfold osWrite
  have hA : (f.take pos).length = min pos f.length := List.length_take _ _
  have htk : ((f.take pos ++ b1) ++ f.drop (pos + b1.length)).take (pos + b1.length) =
      f.take pos ++ b1 := by
    rw [List.take_append_eq_append_take]
    have h1 : (f.take pos ++ b1).length ≤ pos + b1.length := by
      simp only [List.length_append, hA]
      omega
    rw [List.take_of_length_le h1]
    have h2 : (f.drop (pos + b1.length)).take
        (pos + b1.length - (f.take pos ++ b1).length) = [] := by
      rcases le_or_lt pos f.length with hle | hgt
      · have hz : pos + b1.length - (f.take pos ++ b1).length = 0 := by
          simp only [List.length_append, hA]
          omega
        rw [hz, List.take_zero]
      · rw [List.drop_eq_nil_of_le (by omega)]
        exact List.take_nil
    rw [h2, List.append_nil]
  have hdr : ((f.take pos ++ b1) ++ f.drop (pos + b1.length)).drop
      (pos + b1.length + b2.length) = f.drop (pos + (b1 ++ b2).length) := by
    rw [List.drop_append_eq_append_drop]
    have h1 : (f.take pos ++ b1).length ≤ pos + b1.length + b2.length := by
      simp only [List.length_append, hA]
      omega
    rw [List.drop_eq_nil_of_le h1, List.nil_append, List.drop_drop]
    rcases le_or_lt pos f.length with hle | hgt
    · have he : pos + b1.length + (pos + b1.length + b2.length -
          (f.take pos ++ b1).length) = pos + (b1 ++ b2).length := by
        simp only [List.length_append, hA]
        omega
      rw [he]
    · rw [List.drop_eq_nil_of_le (by omega), List.drop_eq_nil_of_le (by
        simp only [List.length_append]
        omega)]
  show f.take pos ++ (b1 ++ b2) ++ f.drop (pos + (b1 ++ b2).length) = _
  rw [htk, hdr]
  simp [List.append_assoc]

/-- Writing at the end of the file appends. -/
theorem osWrite_at_end (f buf : List Nat) : osWrite f f.length buf = f ++ buf := by
  unfold osWrite
  rw [List.take_length, List.drop_eq_nil_of_le (by omega), List.append_nil]

theorem batchBuf_cons (r : Record) (rs : List Record) :
    WAL.batchBuf (r :: rs) = encodeRecord r ++ WAL.batchBuf rs := by
  simp [WAL.batchBuf]

theorem batchBuf_nil : WAL.batchBuf [] = [] := rfl

/-- One batched write of `r :: rs` is one write of `r` followed by a batched
write of `rs`. -/
theorem WriteBatch_cons (w : WAL) (r : Record) (rs : List Record) :
    w.WriteBatch (r :: rs) = (w.Write r).WriteBatch rs := by
  simp only [WAL.WriteBatch, WAL.Write, batchBuf_cons, osWrite_append,
    List.length_append]
  simp [Nat.add_assoc]

theorem WriteBatch_nil (w : WAL) : w.WriteBatch [] = w := by
  simp [WAL.WriteBatch, batchBuf_nil, osWrite]

/-- Sequential writes starting from a state whose write offset and recorded
size both equal the file length append the records and preserve that
alignment. -/
theorem foldl_Write_append (rs : List Record) : ∀ (w : WAL),
    w.pos = w.file.length → w.size = w.file.length →
    (rs.foldl WAL.Write w).file = w.file ++ WAL.batchBuf rs ∧
    (rs.foldl WAL.Write w).pos = (rs.foldl WAL.Write w).file.length ∧
    (rs.foldl WAL.Write w).size = (rs.foldl WAL.Write w).file.length := by
  induction rs with
  | nil =>
    intro w hp hs
    simp [batchBuf_nil, hp, hs]
  | cons r rs ih =>
    intro w hp hs
    have hfile : (w.Write r).file = w.file ++ encodeRecord r := by
      simp [WAL.Write, hp, osWrite_at_end]
    have hp1 : (w.Write r).pos = (w.Write r).file.length := by
      simp [WAL.Write, hfile, hp]
      simp [WAL.Write, osWrite, List.length_append]
    have hs1 : (w.Write r).size = (w.Write r).file.length := by
      simp only [WAL.Write] at hp1 ⊢
      omega
    obtain ⟨h1, h2, h3⟩ := ih (w.Write r) hp1 hs1
    refine ⟨?_, h2, h3⟩
    rw [List.foldl_cons] at *
    rw [h1, hfile, batchBuf_cons, List.append_assoc]

/-- Structural parse of a serialized record recovers it exactly, for any
record whose slice lengths fit in `uint64`. -/
theorem parseChunk_encode (r : Record) (rest : List Nat)
    (hkl : r.key.length < 2 ^ 64) (hvl : r.value.length < 2 ^ 64) :
    parseChunk (encodeRecord r ++ rest) = some (r, (encodeRecord r).length) := by
  have hbs : encodeRecord r ++ rest =
      r.typ :: (encodeVarint r.key.length ++ (encodeVarint r.value.length ++
        (r.key ++ (r.value ++ (putUint32LE (crc32 (r.typ :: (encodeVarint r.key.length ++
          encodeVarint r.value.length ++ r.key ++ r.value))) ++ rest))))) := by
    simp [encodeRecord, List.append_assoc]
  rw [hbs]
  simp only [parseChunk, readUvarint_encode _ _ hkl]
  rw [List.drop_left]
  simp only [readUvarint_encode _ _ hvl]
  rw [drop_len_two]
  have hlen1 : r.key.length ≤ (r.key ++ (r.value ++ (putUint32LE (crc32 (r.typ ::
      (encodeVarint r.key.length ++ encodeVarint r.value.length ++ r.key ++ r.value))) ++
      rest))).length := by
    simp [List.length_append]
  rw [if_pos hlen1, List.take_left, List.drop_left]
  have hlen2 : r.value.length ≤ (r.value ++ (putUint32LE (crc32 (r.typ ::
      (encodeVarint r.key.length ++ encodeVarint r.value.length ++ r.key ++ r.value))) ++
      rest)).length := by
    simp [List.length_append]
  rw [if_pos hlen2, List.take_left, List.drop_left]
  have hlen3 : 4 ≤ ((putUint32LE (crc32 (r.typ :: (encodeVarint r.key.length ++
      encodeVarint r.value.length ++ r.key ++ r.value)))) ++ rest).length := by
    simp [List.length_append, putUint32LE_length]
  rw [if_pos hlen3]
  rw [encodeRecord_length]

theorem encodeRecord_ne_nil (r : Record) : encodeRecord r ≠ [] := by
  simp [encodeRecord]

/-- A record list's concatenated serialization has at least one byte per
record. -/
theorem length_le_flatten_length (rs : List Record) :
    rs.length ≤ ((rs.map encodeRecord).flatten).length := by
  induction rs with
  | nil => simp
  | cons r rs ih =>
    simp only [List.map_cons, List.flatten_cons, List.length_append, List.length_cons]
    have : 1 ≤ (encodeRecord r).length := by
      rcases h : encodeRecord r with _ | ⟨a, l⟩
      · exact absurd h (encodeRecord_ne_nil r)
      · simp
    omega

theorem isConcatAux_concat : ∀ (rs : List Record) (fuel : Nat),
    (∀ r ∈ rs, r.key.length < 2 ^ 64 ∧ r.value.length < 2 ^ 64) →
    rs.length ≤ fuel →
    isConcatAux fuel ((rs.map encodeRecord).flatten) = true := by
  intro rs
  induction rs with
  | nil =>
    intro fuel _ _
    cases fuel <;> rfl
  | cons r rs ih =>
    intro fuel hb hf
    have hf1 : 1 ≤ fuel := le_trans (by simp) hf
    obtain ⟨fuel, rfl⟩ : ∃ f, fuel = f + 1 := ⟨fuel - 1, by omega⟩
    have hflat : ((r :: rs).map encodeRecord).flatten =
        encodeRecord r ++ (rs.map encodeRecord).flatten := by
      simp
    obtain ⟨b, bs, hcons⟩ : ∃ b bs, encodeRecord r ++ (rs.map encodeRecord).flatten =
        b :: bs := by
      rcases h : encodeRecord r with _ | ⟨a, l⟩
      · exact absurd h (encodeRecord_ne_nil r)
      · exact ⟨a, l ++ (rs.map encodeRecord).flatten, by simp [h]⟩
    rw [hflat, hcons]
    have hparse := parseChunk_encode r ((rs.map encodeRecord).flatten)
      (hb r (by simp)).1 (hb r (by simp)).2
    rw [hcons] at hparse
    simp only [isConcatAux, hparse]
    have htake : (b :: bs).take (encodeRecord r).length = encodeRecord r := by
      rw [← hcons, List.take_left]
    have hdrop : (b :: bs).drop (encodeRecord r).length = (rs.map encodeRecord).flatten := by
      rw [← hcons, List.drop_left]
    rw [htake, hdrop]
    have hd : decide (encodeRecord r = encodeRecord r) = true := by simp
    rw [hd, Bool.true_and]
    exact ih fuel (fun x hx => hb x (by simp [hx]))
      (by simp only [List.length_cons] at hf; omega)

/-- Soundness of the decision procedure: a valid file passes the greedy
check. -/
theorem ValidFile_isConcat (bs : List Nat) (h : ValidFile bs) : isConcat bs = true := by
  obtain ⟨rs, hb, rfl⟩ := h
  exact isConcatAux_concat rs _ hb
    (Nat.le_trans (length_le_flatten_length rs) (by omega))

/-- Starting from a WAL state whose write offset sits at the end of a valid
file, any sequence of writes and batched writes keeps the file valid and the
offset at the end. -/
theorem applyWalOps_invariant (ops : List WalOp) : ∀ (w : WAL),
    (∀ op ∈ ops, OpBounded op) → ValidFile w.file → w.pos = w.file.length →
    ValidFile (applyWalOps w ops).file ∧
    (applyWalOps w ops).pos = (applyWalOps w ops).file.length := by
  induction ops with
  | nil =>
    intro w _ hv hp
    exact ⟨hv, hp⟩
  | cons op ops ih =>
    intro w hops hv hp
    have hstep : ∀ w1 : WAL, applyWalOps w (op :: ops) = applyWalOps w1 ops →
        ValidFile w1.file → w1.pos = w1.file.length →
        ValidFile (applyWalOps w (op :: ops)).file ∧
        (applyWalOps w (op :: ops)).pos = (applyWalOps w (op :: ops)).file.length := by
      intro w1 heq hv1 hp1
      rw [heq]
      exact ih w1 (fun o ho => hops o (by simp [ho])) hv1 hp1
    obtain ⟨rs0, hb0, hf0⟩ := hv
    cases op with
    | write r =>
      refine hstep (w.Write r) rfl ?_ ?_
      · refine ⟨rs0 ++ [r], ?_, ?_⟩
        · intro x hx
          rcases List.mem_append.mp hx with h | h
          · exact hb0 x h
          · have : x = r := by simpa using h
            subst this
            exact hops (.write x) (by simp)
        · simp only [WAL.Write]
          rw [hp, osWrite_at_end, hf0]
          simp
      · simp only [WAL.Write]
        rw [hp, osWrite_at_end]
        simp [List.length_append, hp]
    | writeBatch rs =>
      refine hstep (w.WriteBatch rs) rfl ?_ ?_
      · refine ⟨rs0 ++ rs, ?_, ?_⟩
        · intro x hx
          rcases List.mem_append.mp hx with h | h
          · exact hb0 x h
          · exact hops (.writeBatch rs) (by simp) x h
        · simp only [WAL.WriteBatch]
          rw [hp, osWrite_at_end, hf0]
          simp [WAL.batchBuf]
      · simp only [WAL.WriteBatch]
        rw [hp, osWrite_at_end]
        simp [List.length_append, hp]

/-- Full iteration over a file whose suffix from `off` is the concatenation
of well-formed records yields exactly those records followed by
end-of-log. -/
theorem collectRecords_concat : ∀ (rs : List Record) (file : List Nat) (off fuel : Nat),
    (∀ r ∈ rs, WFRecord r) →
    file.drop off = (rs.map encodeRecord).flatten →
    off ≤ file.length →
    rs.length < fuel →
    collectRecords file ⟨off, file.length⟩ fuel = (rs, .atEof) := by
  intro rs
  induction rs with
  | nil =>
    intro file off fuel _ hdrop hoff hfuel
    obtain ⟨f, rfl⟩ : ∃ f, fuel = f + 1 := ⟨fuel - 1, by omega⟩
    have hnil : file.drop off = [] := by simpa using hdrop
    have hoffeq : off = file.length := by
      have := List.drop_eq_nil_iff.mp hnil
      omega
    subst hoffeq
    simp [collectRecords, Iterator.Next]
  | cons r rs ih =>
    intro file off fuel hwf hdrop hoff hfuel
    obtain ⟨f, rfl⟩ : ∃ f, fuel = f + 1 := ⟨fuel - 1, by omega⟩
    have hflat : file.drop off = encodeRecord r ++ (rs.map encodeRecord).flatten := by
      simpa using hdrop
    have hne : file.drop off ≠ [] := by
      rw [hflat]
      intro hcontra
      exact encodeRecord_ne_nil r (List.append_eq_nil.mp hcontra).1
    have hofflt : off < file.length := by
      rcases lt_or_ge off file.length with h | h
      · exact h
      · exact absurd (List.drop_eq_nil_of_le h) hne
    have hdec : decodeRecordFrom (file.drop off) = .ok (r, (encodeRecord r).length) := by
      rw [hflat]
      exact decodeRecordFrom_encode r _ (hwf r (by simp))
    have hstep : Iterator.Next ⟨off, file.length⟩ file =
        (.ok r, ⟨off + (encodeRecord r).length, file.length⟩) := by
      simp [Iterator.Next, hdec, Nat.not_le.mpr hofflt]
    have hlen : off + (encodeRecord r).length ≤ file.length := by
      have h1 : (file.drop off).length = file.length - off := List.length_drop _ _
      rw [hflat] at h1
      simp only [List.length_append] at h1
      omega
    have hdrop2 : file.drop (off + (encodeRecord r).length) =
        (rs.map encodeRecord).flatten := by
      rw [← List.drop_drop, hflat, List.drop_left]
    have hrec := ih file (off + (encodeRecord r).length) f
      (fun x hx => hwf x (by simp [hx])) hdrop2 hlen
      (by simp only [List.length_cons] at hfuel; omega)
    simp [collectRecords, hstep, hrec]

/-! ## Claim theorems: WAL -/
set_option maxRecDepth 16384 in
/-- Claim C2 counterexample: opening a WAL on an existing non-empty file
(here: one valid Put record for key "aa") and writing another record (a Put
for key "b") does not append — the write lands at offset 0 because the file
is opened without `O_APPEND` — and the resulting file is not a concatenation
of complete, checksum-valid records. -/
theorem wal_reopen_write_corrupts :
    ((WAL.Open (encodeRecord ⟨1, [97, 97], [49, 49]⟩)).Write ⟨1, [98], [50]⟩).file ≠
      encodeRecord ⟨1, [97, 97], [49, 49]⟩ ++ encodeRecord ⟨1, [98], [50]⟩ ∧
    ¬ ValidFile ((WAL.Open (encodeRecord ⟨1, [97, 97], [49, 49]⟩)).Write
      ⟨1, [98], [50]⟩).file := by
  refine ⟨by decide, fun h => absurd (ValidFile_isConcat _ h) (by decide)⟩

/-- Claim C2 (amended): on a WAL opened on an empty (freshly created) file,
every `Write`/`WriteBatch` keeps the write offset at the end of the file, so
each write appends after all previously written records and the file read
from offset 0 is always a concatenation of zero or more complete,
individually checksum-valid records. (Reopening a non-empty file breaks
this: the write offset restarts at 0 and overwrites.) -/
theorem wal_fresh_file_valid_concat (ops : List WalOp)
    (h : ∀ op ∈ ops, OpBounded op) :
    ValidFile (applyWalOps (WAL.Open []) ops).file ∧
    (∀ r, ((applyWalOps (WAL.Open []) ops).Write r).file =
      (applyWalOps (WAL.Open []) ops).file ++ encodeRecord r) := by
  obtain ⟨hv, hp⟩ := applyWalOps_invariant ops (WAL.Open []) h ⟨[], by simp, rfl⟩ rfl
  refine ⟨hv, fun r => ?_⟩
  simp only [WAL.Write]
  rw [hp, osWrite_at_end]

theorem wal_fresh_file_valid_concat_witness :
    ValidFile (applyWalOps (WAL.Open [])
      [.write ⟨1, [97], [49]⟩, .writeBatch [⟨2, [98], []⟩]]).file ∧
    ((applyWalOps (WAL.Open [])
        [.write ⟨1, [97], [49]⟩, .writeBatch [⟨2, [98], []⟩]]).Write
      ⟨1, [99], [51]⟩).file =
      (applyWalOps (WAL.Open [])
        [.write ⟨1, [97], [49]⟩, .writeBatch [⟨2, [98], []⟩]]).file ++
      encodeRecord ⟨1, [99], [51]⟩ :=
  ⟨(wal_fresh_file_valid_concat _ (by decide)).1,
   (wal_fresh_file_valid_concat _ (by decide)).2 ⟨1, [99], [51]⟩⟩

/-- Claim C4: writing any sequence of (well-formed) records to a freshly
created WAL and then iterating from a new iterator yields exactly those
records, in order, with identical type/key/value, followed by the
end-of-log signal. -/
theorem wal_write_iterate_roundtrip (rs : List Record) (h : ∀ r ∈ rs, WFRecord r) :
    collectRecords (rs.foldl WAL.Write (WAL.Open [])).file
      ((rs.foldl WAL.Write (WAL.Open [])).NewIterator)
      ((rs.foldl WAL.Write (WAL.Open [])).file.length + 1) = (rs, .atEof) := by
  obtain ⟨hfile, hpos, hsize⟩ := foldl_Write_append rs (WAL.Open []) rfl rfl
  have hfile1 : (rs.foldl WAL.Write (WAL.Open [])).file =
      (rs.map encodeRecord).flatten := by
    simpa [WAL.batchBuf] using hfile
  have hiter : (rs.foldl WAL.Write (WAL.Open [])).NewIterator =
      (⟨0, (rs.foldl WAL.Write (WAL.Open [])).file.length⟩ : Iterator) := by
    simp [WAL.NewIterator, hsize]
  rw [hiter]
  refine collectRecords_concat rs _ 0 _ h (by simpa using hfile1) (by omega) ?_
  have h1 := length_le_flatten_length rs
  rw [← hfile1] at h1
  omega

theorem wal_write_iterate_roundtrip_witness :
    collectRecords (([⟨1, [97], [49]⟩, ⟨2, [98], []⟩] : List Record).foldl
        WAL.Write (WAL.Open [])).file
      ((([⟨1, [97], [49]⟩, ⟨2, [98], []⟩] : List Record).foldl
        WAL.Write (WAL.Open [])).NewIterator)
      ((([⟨1, [97], [49]⟩, ⟨2, [98], []⟩] : List Record).foldl
        WAL.Write (WAL.Open [])).file.length + 1) =
      ([⟨1, [97], [49]⟩, ⟨2, [98], []⟩], .atEof) :=
  wal_write_iterate_roundtrip [⟨1, [97], [49]⟩, ⟨2, [98], []⟩] (by decide)

/-- Claim C8: a batched write of any record list is state-identical to the
corresponding sequence of single-record writes — same file bytes (hence the
same record sequence on replay, each record with its own checksum), same
write offset, same recorded size. -/
theorem wal_writeBatch_eq_sequential_writes (w : WAL) (rs : List Record) :
    w.WriteBatch rs = rs.foldl WAL.Write w := by
  induction rs generalizing w with
  | nil => simpa using WriteBatch_nil w
  | cons r rs ih =>
    rw [WriteBatch_cons, List.foldl_cons]
    exact ih (w.Write r)

/-- Claim C9: behavior of `Iterator.Next` — at or past the snapshotted end
offset it signals end-of-log (not an error); when the record parses but its
stored CRC32 differs from the recomputed one it returns the
invalid-checksum error and leaves the offset unchanged; on success it
returns the record and advances the offset by exactly the consumed byte
count. -/
theorem wal_iterator_next_spec (file : List Nat) (it : Iterator) :
    (it.fileEnd ≤ it.offset → it.Next file = (.eof, it)) ∧
    (∀ p : ParsedRecord, it.offset < it.fileEnd →
      decodeParts (file.drop it.offset) = .ok p → p.computed ≠ p.stored →
      it.Next file = (.err .invalidChecksum, it)) ∧
    (∀ r sz, it.offset < it.fileEnd →
      decodeRecordFrom (file.drop it.offset) = .ok (r, sz) →
      it.Next file = (.ok r, ⟨it.offset + sz, it.fileEnd⟩)) := by
  refine ⟨fun hle => ?_, fun p hlt hparse hne => ?_, fun r sz hlt hdec => ?_⟩
  · simp [Iterator.Next, hle]
  · have hdec : decodeRecordFrom (file.drop it.offset) = .error .invalidChecksum := by
      rw [decodeRecordFrom, hparse]
      simp [hne]
    simp [Iterator.Next, Nat.not_le.mpr hlt, hdec]
  · simp [Iterator.Next, Nat.not_le.mpr hlt, hdec]

theorem wal_iterator_next_spec_witness :
    Iterator.Next ⟨0, 0⟩ [] = (.eof, ⟨0, 0⟩) ∧
    Iterator.Next ⟨0, 7⟩ [1, 0, 0, 0, 0, 0, 0] = (.err .invalidChecksum, ⟨0, 7⟩) ∧
    Iterator.Next ⟨0, 7⟩ (encodeRecord ⟨1, [], []⟩) =
      (.ok ⟨1, [], []⟩, ⟨7, 7⟩) :=
  ⟨(wal_iterator_next_spec [] ⟨0, 0⟩).1 (by decide),
   (wal_iterator_next_spec [1, 0, 0, 0, 0, 0, 0] ⟨0, 7⟩).2.1
     ⟨⟨1, [], []⟩, 7, 0, crc32 [1, 0, 0]⟩ (by decide) (by decide) (by decide),
   (wal_iterator_next_spec (encodeRecord ⟨1, [], []⟩) ⟨0, 7⟩).2.2
     ⟨1, [], []⟩ 7 (by decide) (by decide)⟩

namespace SkipList

variable {K V : Type}

/-! ### Arena slot lemmas -/
theorem nodes_length_setFwd (sl : SkipList K V) (x i : Nat) (p : Ptr) :
    (setFwd sl x i p).nodes.length = sl.nodes.length := by
  simp [setFwd]

theorem level_setFwd (sl : SkipList K V) (x i : Nat) (p : Ptr) :
    (setFwd sl x i p).level = sl.level := rfl

theorem size_setFwd (sl : SkipList K V) (x i : Nat) (p : Ptr) :
    (setFwd sl x i p).size = sl.size := rfl

theorem setFwd_oob (sl : SkipList K V) {x : Nat} (i : Nat) (p : Ptr)
    (h : sl.nodes.length ≤ x) : setFwd sl x i p = sl := by
  simp [setFwd, List.set_eq_of_length_le h]

theorem getNode_setFwd_ne (sl : SkipList K V) {x y : Nat} (i : Nat) (p : Ptr)
    (h : y ≠ x) : getNode (setFwd sl x i p) y = getNode sl y := by
  simp [getNode, setFwd, List.getD_eq_getElem?_getD,
    List.getElem?_set_ne (Ne.symm h)]

theorem getNode_setFwd_self (sl : SkipList K V) {x : Nat} (i : Nat) (p : Ptr)
    (hx : x < sl.nodes.length) :
    getNode (setFwd sl x i p) x =
      { getNode sl x with forward := (getNode sl x).forward.set i p } := by
  unfold getNode setFwd
  simp only [List.getD_eq_getElem?_getD, List.getElem?_set_self (by simpa using hx)]
  rfl

theorem keyAt_setFwd (sl : SkipList K V) (x i : Nat) (p : Ptr) (y : Nat) :
    keyAt (setFwd sl x i p) y = keyAt sl y := by
  by_cases hx : x < sl.nodes.length
  · by_cases h : y = x
    · subst h
      rw [keyAt, getNode_setFwd_self sl i p hx]
      rfl
    · rw [keyAt, getNode_setFwd_ne sl i p h]
      rfl
  · rw [setFwd_oob sl i p (by omega)]

theorem valueAt_setFwd (sl : SkipList K V) (x i : Nat) (p : Ptr) (y : Nat) :
    valueAt (setFwd sl x i p) y = valueAt sl y := by
  by_cases hx : x < sl.nodes.length
  · by_cases h : y = x
    · subst h
      rw [valueAt, getNode_setFwd_self sl i p hx]
      rfl
    · rw [valueAt, getNode_setFwd_ne sl i p h]
      rfl
  · rw [setFwd_oob sl i p (by omega)]

theorem height_setFwd (sl : SkipList K V) (x i : Nat) (p : Ptr) (y : Nat) :
    height (setFwd sl x i p) y = height sl y := by
  by_cases hx : x < sl.nodes.length
  · by_cases h : y = x
    · subst h
      rw [height, getNode_setFwd_self sl i p hx]
      simp [height]
    · rw [height, getNode_setFwd_ne sl i p h]
      rfl
  · rw [setFwd_oob sl i p (by omega)]

theorem fwd_setFwd_self (sl : SkipList K V) {x i : Nat} (p : Ptr)
    (hx : x < sl.nodes.length) (hi : i < height sl x) :
    fwd (setFwd sl x i p) x i = p := by
  rw [fwd, getNode_setFwd_self sl i p hx]
  show ((getNode sl x).forward.set i p).getD i none = p
  rw [List.getD_eq_getElem?_getD, List.getElem?_set_self (by simpa [height] using hi)]
  rfl

theorem fwd_setFwd_ne (sl : SkipList K V) {x i : Nat} (p : Ptr) {y j : Nat}
    (h : y ≠ x ∨ j ≠ i) : fwd (setFwd sl x i p) y j = fwd sl y j := by
  by_cases hx : x < sl.nodes.length
  · by_cases hy : y = x
    · subst hy
      rcases h with h | h
      · exact absurd rfl h
      · rw [fwd, getNode_setFwd_self sl i p hx]
        show ((getNode sl y).forward.set i p).getD j none = _
        rw [List.getD_eq_getElem?_getD, List.getElem?_set_ne (Ne.symm h)]
        simp [fwd, List.getD_eq_getElem?_getD]
    · rw [fwd, getNode_setFwd_ne sl i p hy]
      rfl
  · rw [setFwd_oob sl i p (by omega)]

theorem nodes_length_setValue (sl : SkipList K V) (y : Nat) (v : V) :
    (setValue sl y v).nodes.length = sl.nodes.length := by
  simp [setValue]

theorem level_setValue (sl : SkipList K V) (y : Nat) (v : V) :
    (setValue sl y v).level = sl.level := rfl

theorem size_setValue (sl : SkipList K V) (y : Nat) (v : V) :
    (setValue sl y v).size = sl.size := rfl

theorem setValue_oob (sl : SkipList K V) {y : Nat} (v : V)
    (h : sl.nodes.length ≤ y) : setValue sl y v = sl := by
  simp [setValue, List.set_eq_of_length_le h]

theorem getNode_setValue_ne (sl : SkipList K V) {y z : Nat} (v : V)
    (h : z ≠ y) : getNode (setValue sl y v) z = getNode sl z := by
  simp [getNode, setValue, List.getD_eq_getElem?_getD,
    List.getElem?_set_ne (Ne.symm h)]

theorem getNode_setValue_self (sl : SkipList K V) {y : Nat} (v : V)
    (hy : y < sl.nodes.length) :
    getNode (setValue sl y v) y = { getNode sl y with value := some v } := by
  unfold getNode setValue
  simp only [List.getD_eq_getElem?_getD, List.getElem?_set_self (by simpa using hy)]
  rfl

theorem keyAt_setValue (sl : SkipList K V) (y : Nat) (v : V) (z : Nat) :
    keyAt (setValue sl y v) z = keyAt sl z := by
  by_cases hy : y < sl.nodes.length
  · by_cases h : z = y
    · subst h
      rw [keyAt, getNode_setValue_self sl v hy]
      rfl
    · rw [keyAt, getNode_setValue_ne sl v h]
      rfl
  · rw [setValue_oob sl v (by omega)]

theorem height_setValue (sl : SkipList K V) (y : Nat) (v : V) (z : Nat) :
    height (setValue sl y v) z = height sl z := by
  by_cases hy : y < sl.nodes.length
  · by_cases h : z = y
    · subst h
      rw [height, getNode_setValue_self sl v hy]
      rfl
    · rw [height, getNode_setValue_ne sl v h]
      rfl
  · rw [setValue_oob sl v (by omega)]

theorem fwd_setValue (sl : SkipList K V) (y : Nat) (v : V) (z j : Nat) :
    fwd (setValue sl y v) z j = fwd sl z j := by
  by_cases hy : y < sl.nodes.length
  · by_cases h : z = y
    · subst h
      rw [fwd, getNode_setValue_self sl v hy]
      rfl
    · rw [fwd, getNode_setValue_ne sl v h]
      rfl
  · rw [setValue_oob sl v (by omega)]

theorem valueAt_setValue_self (sl : SkipList K V) {y : Nat} (v : V)
    (hy : y < sl.nodes.length) : valueAt (setValue sl y v) y = some v := by
  rw [valueAt, getNode_setValue_self sl v hy]

theorem valueAt_setValue_ne (sl : SkipList K V) {y z : Nat} (v : V)
    (h : z ≠ y) : valueAt (setValue sl y v) z = valueAt sl z := by
  rw [valueAt, getNode_setValue_ne sl v h]
  rfl

/-! ### Chain lemmas -/
theorem links_nil {sl : SkipList K V} {i s : Nat} {m : Ptr} :
    Links sl i s [] m ↔ fwd sl s i = m :=
  ⟨fun h => h.2, fun h => ⟨List.Chain.nil, h⟩⟩

theorem links_cons {sl : SkipList K V} {i s z : Nat} {l : List Nat} {m : Ptr} :
    Links sl i s (z :: l) m ↔ fwd sl s i = some z ∧ Links sl i z l m := by
  constructor
  · rintro ⟨hc, hl⟩
    rw [List.chain_cons] at hc
    exact ⟨hc.1, hc.2, by rwa [List.getLastD_cons] at hl⟩
  · rintro ⟨hf, hc, hl⟩
    exact ⟨List.chain_cons.mpr ⟨hf, hc⟩, by rwa [List.getLastD_cons]⟩

theorem links_append {sl : SkipList K V} {i s z : Nat} {l₁ l₂ : List Nat} {m : Ptr} :
    Links sl i s (l₁ ++ z :: l₂) m ↔ Links sl i s l₁ (some z) ∧ Links sl i z l₂ m := by
  induction l₁ generalizing s with
  | nil => rw [List.nil_append, links_cons, links_nil]
  | cons a l ih => simp [List.cons_append, links_cons, ih, and_assoc]

theorem links_congr {sl sl1 : SkipList K V} {i s : Nat} {l : List Nat} {m : Ptr}
    (hev : ∀ u ∈ s :: l, fwd sl1 u i = fwd sl u i) (h : Links sl i s l m) :
    Links sl1 i s l m := by
  induction l generalizing s with
  | nil =>
    rw [links_nil] at h ⊢
    rw [hev s (by simp)]
    exact h
  | cons z l ih =>
    rw [links_cons] at h ⊢
    refine ⟨(hev s (by simp)).trans h.1, ih ?_ h.2⟩
    intro u hu
    refine hev u ?_
    simp only [List.mem_cons] at hu ⊢
    tauto

theorem links_mem_suffix {sl : SkipList K V} {i s : Nat} {l : List Nat} {m : Ptr}
    (h : Links sl i s l m) {x : Nat} (hx : x ∈ l) :
    ∃ l₁ l₂, l = l₁ ++ x :: l₂ ∧ Links sl i x l₂ m := by
  induction l generalizing s with
  | nil => cases hx
  | cons z l ih =>
    rw [links_cons] at h
    rcases List.mem_cons.mp hx with rfl | hx1
    · exact ⟨[], l, rfl, h.2⟩
    · obtain ⟨l₁, l₂, rfl, hl⟩ := ih h.2 hx1
      exact ⟨z :: l₁, l₂, rfl, hl⟩

theorem getLastD_append_cons {l₁ l₂ : List Nat} {x d : Nat} :
    (l₁ ++ x :: l₂).getLastD d = l₂.getLastD x := by
  rw [List.getLastD_eq_getLast?, List.getLast?_append_cons, ← List.getLastD_eq_getLast?,
    List.getLastD_cons]

/-! ### Comparator lemmas -/
theorem compareKeys_lt_iff [LinearOrder K] (a b : K) : compareKeys a b < 0 ↔ a < b := by
  unfold compareKeys
  split_ifs with h1 h2
  · simpa using h1
  · simp only [gt_iff_lt] at h2
    constructor
    · omega
    · intro h
      exact absurd h h1
  · constructor
    · omega
    · intro h
      exact absurd h h1

theorem compareKeys_eq_zero_iff [LinearOrder K] (a b : K) :
    compareKeys a b = 0 ↔ a = b := by
  unfold compareKeys
  split_ifs with h1 h2
  · constructor
    · intro h
      norm_num at h
    · intro h
      exact absurd h (ne_of_lt h1)
  · simp only [gt_iff_lt] at h2
    constructor
    · omega
    · intro h
      exact absurd h (ne_of_gt h2)
  · simp only [gt_iff_lt, not_lt] at h1 h2
    simp [le_antisymm h2 h1]

/-! ### The advance loop follows the chain -/
theorem advance_links [LinearOrder K] [DecidableEq V] {sl : SkipList K V} {κ : K}
    {i : Nat} : ∀ (l : List Nat) (x fuel : Nat) (m : Ptr),
    Links sl i x l m →
    (∀ z ∈ l, ∃ kz, keyAt sl z = some kz ∧ kz < κ) →
    (∀ b kb, m = some b → keyAt sl b = some kb → ¬(kb < κ)) →
    l.length < fuel →
    advance sl κ i fuel x = l.getLastD x := by
  intro l
  induction l with
  | nil =>
    intro x fuel m hlk _ hblocked hfuel
    obtain ⟨f, rfl⟩ : ∃ f, fuel = f + 1 := ⟨fuel - 1, by omega⟩
    rw [links_nil] at hlk
    rw [advance, hlk]
    cases m with
    | none => rfl
    | some b =>
      dsimp only
      cases hkb : keyAt sl b with
      | none => rfl
      | some kb =>
        dsimp only
        rw [if_neg (by rw [compareKeys_lt_iff]; exact hblocked b kb rfl hkb)]
        rfl
  | cons z l ih =>
    intro x fuel m hlk hkeys hblocked hfuel
    obtain ⟨f, rfl⟩ : ∃ f, fuel = f + 1 := ⟨fuel - 1, by omega⟩
    rw [links_cons] at hlk
    obtain ⟨kz, hkz, hkzlt⟩ := hkeys z (by simp)
    rw [advance, hlk.1]
    dsimp only
    rw [hkz]
    dsimp only
    rw [if_pos (by rw [compareKeys_lt_iff]; exact hkzlt)]
    rw [List.getLastD_cons]
    exact ih z f m hlk.2 (fun u hu => hkeys u (by simp [hu])) hblocked
      (by simp only [List.length_cons] at hfuel; omega)

theorem Fil_mono {sl : SkipList K V} {i j : Nat} (h : j ≤ i) {l : List Nat} {z : Nat}
    (hz : z ∈ Fil sl i l) : z ∈ Fil sl j l := by
  rw [Fil, List.mem_filter] at hz ⊢
  refine ⟨hz.1, ?_⟩
  have := of_decide_eq_true hz.2
  exact decide_eq_true (by omega)

theorem Fil_subset {sl : SkipList K V} {i : Nat} {l : List Nat} {z : Nat}
    (hz : z ∈ Fil sl i l) : z ∈ l :=
  List.mem_of_mem_filter hz

theorem Fil_append (sl : SkipList K V) (i : Nat) (l₁ l₂ : List Nat) :
    Fil sl i (l₁ ++ l₂) = Fil sl i l₁ ++ Fil sl i l₂ := by
  simp only [Fil, List.filter_append]

theorem Fil_zero_eq {sl : SkipList K V} {l : List Nat}
    (h : ∀ z ∈ l, 1 ≤ height sl z) : Fil sl 0 l = l := by
  rw [Fil, List.filter_eq_self]
  intro z hz
  exact decide_eq_true (by have := h z hz; omega)

theorem getLastD_cases (l : List Nat) (d : Nat) : l.getLastD d = d ∨ l.getLastD d ∈ l := by
  induction l generalizing d with
  | nil => exact Or.inl rfl
  | cons a t ih =>
    rw [List.getLastD_cons]
    rcases ih a with h | h
    · refine Or.inr ?_
      rw [h]
      simp
    · exact Or.inr (List.mem_cons_of_mem a h)

theorem map_some_forall {sl : SkipList K V} : ∀ (l : List Nat) (ls : List K),
    l.map (keyAt sl) = ls.map some → ∀ x ∈ l, ∃ k, keyAt sl x = some k ∧ k ∈ ls := by
  intro l
  induction l with
  | nil =>
    intro ls _ x hx
    cases hx
  | cons a t ih =>
    intro ls hmap x hx
    cases ls with
    | nil => simp at hmap
    | cons k ks =>
      simp only [List.map_cons, List.cons.injEq] at hmap
      rcases List.mem_cons.mp hx with rfl | hx1
      · exact ⟨k, hmap.1, by simp⟩
      · obtain ⟨k1, hk1, hm⟩ := ih ks hmap.2 x hx1
        exact ⟨k1, hk1, by simp [hm]⟩

theorem tour_nodup [LinearOrder K] {sl : SkipList K V} {tour : List Nat} {ks : List K}
    (hmap : tour.map (keyAt sl) = ks.map some)
    (hsort : List.Chain' (· < ·) ks) : tour.Nodup := by
  have hks : ks.Nodup := (List.chain'_iff_pairwise.mp hsort).nodup
  have h1 : (ks.map some).Nodup := hks.map (fun a b => by simp)
  rw [← hmap] at h1
  exact h1.of_map _

theorem tour_length_lt [LinearOrder K] {sl : SkipList K V} {tour : List Nat} {ks : List K}
    (hmap : tour.map (keyAt sl) = ks.map some)
    (hsort : List.Chain' (· < ·) ks)
    (hmem : ∀ x ∈ tour, x ≠ 0 ∧ x < sl.nodes.length)
    (hlen : 0 < sl.nodes.length) : tour.length < sl.nodes.length := by
  have hnd : tour.Nodup := tour_nodup hmap hsort
  have hsub : tour.toFinset ⊆ Finset.Ico 1 sl.nodes.length := by
    intro x hx
    rw [List.mem_toFinset] at hx
    obtain ⟨h1, h2⟩ := hmem x hx
    rw [Finset.mem_Ico]
    omega
  have hcard := Finset.card_le_card hsub
  rw [List.toFinset_card_of_nodup hnd, Nat.card_Ico] at hcard
  omega

theorem sorted_split [LinearOrder K] (κ : K) : ∀ (ks : List K),
    List.Chain' (· < ·) ks →
    ∃ n, n ≤ ks.length ∧ (∀ k ∈ ks.take n, k < κ) ∧ (∀ k ∈ ks.drop n, κ ≤ k) := by
  intro ks
  induction ks with
  | nil => exact fun _ => ⟨0, by simp⟩
  | cons a t ih =>
    intro hs
    by_cases ha : a < κ
    · obtain ⟨n, hn, h1, h2⟩ := ih hs.tail
      refine ⟨n + 1, by simp only [List.length_cons]; omega, ?_, ?_⟩
      · intro k hk
        rw [List.take_succ_cons] at hk
        rcases List.mem_cons.mp hk with rfl | hk1
        · exact ha
        · exact h1 k hk1
      · intro k hk
        rw [List.drop_succ_cons] at hk
        exact h2 k hk
    · refine ⟨0, by simp, by simp, ?_⟩
      intro k hk
      simp only [List.drop_zero] at hk
      rcases List.mem_cons.mp hk with rfl | hk1
      · exact le_of_not_lt ha
      · have hp := List.chain'_iff_pairwise.mp hs
        have hak : a < k := (List.pairwise_cons.mp hp).1 k hk1
        exact le_trans (le_of_not_lt ha) (le_of_lt hak)

theorem represents_split [LinearOrder K] {sl : SkipList K V} {tour : List Nat}
    {ks : List K} (hmap : tour.map (keyAt sl) = ks.map some)
    (hsort : List.Chain' (· < ·) ks) (κ : K) :
    ∃ A B ksA ksB, tour = A ++ B ∧ ks = ksA ++ ksB ∧
      A.map (keyAt sl) = ksA.map some ∧ B.map (keyAt sl) = ksB.map some ∧
      (∀ k ∈ ksA, k < κ) ∧ (∀ k ∈ ksB, κ ≤ k) := by
  obtain ⟨n, hn, h1, h2⟩ := sorted_split κ ks hsort
  refine ⟨tour.take n, tour.drop n, ks.take n, ks.drop n,
    (List.take_append_drop n tour).symm, (List.take_append_drop n ks).symm, ?_, ?_, h1, h2⟩
  · rw [List.map_take, hmap, ← List.map_take]
  · rw [List.map_drop, hmap, ← List.map_drop]

/-- The advance loop starting anywhere on (or at the head of) the
below-the-key part of a level-`i` chain lands on the level-`i`
predecessor. -/
theorem advance_pred [LinearOrder K] [DecidableEq V] {sl : SkipList K V}
    {A B : List Nat} {ksA ksB : List K} {κ : K}
    (hmapA : A.map (keyAt sl) = ksA.map some)
    (hmapB : B.map (keyAt sl) = ksB.map some)
    (hkA : ∀ k ∈ ksA, k < κ) (hkB : ∀ k ∈ ksB, κ ≤ k)
    {i : Nat}
    (hchain : Links sl i 0 (Fil sl i A ++ Fil sl i B) none)
    (hflen : (Fil sl i A ++ Fil sl i B).length < sl.nodes.length)
    {x : Nat} (hx : x = 0 ∨ x ∈ Fil sl i A) :
    advance sl κ i sl.nodes.length x = predAt sl A i := by
  have hkeysA : ∀ z ∈ Fil sl i A, ∃ kz, keyAt sl z = some kz ∧ kz < κ := by
    intro z hz
    obtain ⟨k, hk, hkin⟩ := map_some_forall A ksA hmapA z (Fil_subset hz)
    exact ⟨k, hk, hkA k hkin⟩
  have hlA : (Fil sl i A).length < sl.nodes.length := by
    rw [List.length_append] at hflen
    omega
  rw [predAt]
  cases hFB : Fil sl i B with
  | nil =>
    rw [hFB, List.append_nil] at hchain
    rcases hx with rfl | hxA
    · exact advance_links (Fil sl i A) 0 sl.nodes.length none hchain hkeysA
        (by simp) hlA
    · obtain ⟨l₁, l₂, hdec, hl₂⟩ := links_mem_suffix hchain hxA
      have hl₂len : l₂.length < sl.nodes.length := by
        have : l₂.length ≤ (Fil sl i A).length := by
          rw [hdec]
          simp only [List.length_append, List.length_cons]
          omega
        omega
      have hadv := advance_links l₂ x sl.nodes.length none hl₂
        (fun z hz => hkeysA z (by
          rw [hdec]
          exact List.mem_append_right _ (List.mem_cons_of_mem _ hz)))
        (by simp) hl₂len
      rw [hadv, hdec, getLastD_append_cons]
  | cons y FB1 =>
    rw [hFB] at hchain
    obtain ⟨hcA, hcB⟩ := links_append.mp hchain
    have hyB : y ∈ B := Fil_subset (i := i) (by
      rw [hFB]
      exact List.mem_cons_self y FB1)
    obtain ⟨ky, hky, hkyin⟩ := map_some_forall B ksB hmapB y hyB
    have hblocked : ∀ b kb, (some y : Ptr) = some b → keyAt sl b = some kb →
        ¬(kb < κ) := by
      rintro b kb hb hkb
      have hyb : y = b := Option.some.inj hb
      subst hyb
      rw [hky] at hkb
      have : ky = kb := Option.some.inj hkb
      subst this
      exact not_lt.mpr (hkB ky hkyin)
    rcases hx with rfl | hxA
    · exact advance_links (Fil sl i A) 0 sl.nodes.length (some y) hcA hkeysA
        hblocked hlA
    · obtain ⟨l₁, l₂, hdec, hl₂⟩ := links_mem_suffix hcA hxA
      have hl₂len : l₂.length < sl.nodes.length := by
        have : l₂.length ≤ (Fil sl i A).length := by
          rw [hdec]
          simp only [List.length_append, List.length_cons]
          omega
        omega
      have hadv := advance_links l₂ x sl.nodes.length (some y) hl₂
        (fun z hz => hkeysA z (by
          rw [hdec]
          exact List.mem_append_right _ (List.mem_cons_of_mem _ hz)))
        hblocked hl₂len
      rw [hadv, hdec, getLastD_append_cons]

/-- Chain and fuel facts packaged from the invariant for a given split. -/
theorem split_chain_fuel [LinearOrder K] [DecidableEq V] {sl : SkipList K V}
    {tour : List Nat} {ks : List K} (hrep : Represents sl tour ks)
    {A B : List Nat} (htour : tour = A ++ B) {i : Nat} (hi : i < maxLevel) :
    Links sl i 0 (Fil sl i A ++ Fil sl i B) none ∧
    (Fil sl i A ++ Fil sl i B).length < sl.nodes.length := by
  obtain ⟨hlen, hk0, hh0, hmap, hsort, hmem, hlev1, hlev2, hsize, hchains, htop⟩ := hrep
  have hchain := hchains i hi
  rw [htour] at hchain hmap hmem
  constructor
  · rw [← Fil_append]
    exact hchain
  · rw [← Fil_append]
    have h1 : (Fil sl i (A ++ B)).length ≤ (A ++ B).length := List.length_filter_le _ _
    have h2 : (A ++ B).length < sl.nodes.length :=
      tour_length_lt hmap hsort (fun x hx => ⟨(hmem x hx).1, (hmem x hx).2.1⟩) hlen
    omega

/-- The descent builds exactly the per-level predecessor array. -/
theorem descend_pred [LinearOrder K] [DecidableEq V] {sl : SkipList K V}
    {tour : List Nat} {ks : List K} (hrep : Represents sl tour ks)
    {A B : List Nat} {ksA ksB : List K} {κ : K}
    (htour : tour = A ++ B)
    (hmapA : A.map (keyAt sl) = ksA.map some)
    (hmapB : B.map (keyAt sl) = ksB.map some)
    (hkA : ∀ k ∈ ksA, k < κ) (hkB : ∀ k ∈ ksB, κ ≤ k) :
    ∀ (n : Nat), n ≤ sl.level → ∀ x, (x = 0 ∨ x ∈ Fil sl n A) →
    descend sl κ n x = (List.range n).map (predAt sl A) := by
  intro n
  induction n with
  | zero =>
    intro _ x _
    rfl
  | succ n ih =>
    intro hn x hx
    have hlevmax : sl.level ≤ maxLevel := hrep.2.2.2.2.2.2.2.1
    have hi : n < maxLevel := by omega
    obtain ⟨hchain, hflen⟩ := split_chain_fuel hrep htour hi
    have hxn : x = 0 ∨ x ∈ Fil sl n A := by
      rcases hx with rfl | hxx
      · exact Or.inl rfl
      · exact Or.inr (Fil_mono (by omega) hxx)
    have hadv : advance sl κ n sl.nodes.length x = predAt sl A n :=
      advance_pred hmapA hmapB hkA hkB hchain hflen hxn
    have hu : predAt sl A n = 0 ∨ predAt sl A n ∈ Fil sl n A := getLastD_cases _ 0
    simp only [descend]
    rw [hadv, ih (by omega) _ hu, List.range_succ, List.map_append]
    rfl

theorem updAt_range_map (f : Nat → Nat) (n j : Nat) :
    updAt ((List.range n).map f) j = if j < n then f j else 0 := by
  rw [updAt, List.getD_eq_getElem?_getD]
  by_cases h : j < n
  · rw [List.getElem?_map, List.getElem?_range h]
    simp [h]
  · rw [List.getElem?_eq_none (by simpa using h)]
    simp [h]

/-- The find descent lands on the level-0 predecessor. -/
theorem findPred_pred [LinearOrder K] [DecidableEq V] {sl : SkipList K V}
    {tour : List Nat} {ks : List K} (hrep : Represents sl tour ks)
    {A B : List Nat} {ksA ksB : List K} {κ : K}
    (htour : tour = A ++ B)
    (hmapA : A.map (keyAt sl) = ksA.map some)
    (hmapB : B.map (keyAt sl) = ksB.map some)
    (hkA : ∀ k ∈ ksA, k < κ) (hkB : ∀ k ∈ ksB, κ ≤ k) :
    ∀ (n : Nat), n ≤ sl.level → ∀ x, (x = 0 ∨ x ∈ Fil sl n A) →
    findPred sl κ n x = if n = 0 then x else predAt sl A 0 := by
  intro n
  induction n with
  | zero =>
    intro _ x _
    simp [findPred]
  | succ n ih =>
    intro hn x hx
    have hlevmax : sl.level ≤ maxLevel := hrep.2.2.2.2.2.2.2.1
    have hi : n < maxLevel := by omega
    obtain ⟨hchain, hflen⟩ := split_chain_fuel hrep htour hi
    have hxn : x = 0 ∨ x ∈ Fil sl n A := by
      rcases hx with rfl | hxx
      · exact Or.inl rfl
      · exact Or.inr (Fil_mono (by omega) hxx)
    have hadv : advance sl κ n sl.nodes.length x = predAt sl A n :=
      advance_pred hmapA hmapB hkA hkB hchain hflen hxn
    have hu : predAt sl A n = 0 ∨ predAt sl A n ∈ Fil sl n A := getLastD_cases _ 0
    rw [findPred, hadv]
    cases n with
    | zero =>
      simp [findPred, predAt]
    | succ n1 =>
      rw [ih (by omega) _ (by
        rcases hu with h | h
        · exact Or.inl h
        · exact Or.inr h)]
      simp

/-- The forward pointer out of the level-0 predecessor is the head of the
at-or-above part of the tour. -/
theorem fwd_pred0 [LinearOrder K] [DecidableEq V] {sl : SkipList K V}
    {tour : List Nat} {ks : List K} (hrep : Represents sl tour ks)
    {A B : List Nat} (htour : tour = A ++ B) :
    fwd sl (predAt sl A 0) 0 = B.head? := by
  have hmem := hrep.2.2.2.2.2.1
  have h32 : 0 < maxLevel := by norm_num [maxLevel]
  obtain ⟨hchain, _⟩ := split_chain_fuel hrep htour h32
  have hA0 : Fil sl 0 A = A := by
    refine Fil_zero_eq ?_
    intro z hz
    exact (hmem z (by rw [htour]; exact List.mem_append_left _ hz)).2.2.2.1
  have hB0 : Fil sl 0 B = B := by
    refine Fil_zero_eq ?_
    intro z hz
    exact (hmem z (by rw [htour]; exact List.mem_append_right _ hz)).2.2.2.1
  rw [hA0, hB0] at hchain
  rw [predAt, hA0]
  cases B with
  | nil =>
    rw [List.append_nil] at hchain
    exact hchain.2
  | cons y B1 =>
    exact (links_append.mp hchain).1.2

/-- Find when the at-or-above part starts with exactly the searched key. -/
theorem find_present [LinearOrder K] [DecidableEq V] {sl : SkipList K V}
    {tour : List Nat} {ks : List K} (hrep : Represents sl tour ks)
    {A B : List Nat} {ksA ksB : List K} {κ : K}
    (htour : tour = A ++ B)
    (hmapA : A.map (keyAt sl) = ksA.map some)
    (hmapB : B.map (keyAt sl) = ksB.map some)
    (hkA : ∀ k ∈ ksA, k < κ) (hkB : ∀ k ∈ ksB, κ ≤ k)
    {y : Nat} (hB : B.head? = some y) (hk : ksB.head? = some κ) :
    Find sl κ = valueAt sl y := by
  have hlev1 : 1 ≤ sl.level := hrep.2.2.2.2.2.2.1
  rw [Find, findPred_pred hrep htour hmapA hmapB hkA hkB sl.level le_rfl 0 (Or.inl rfl),
    if_neg (by omega), fwd_pred0 hrep htour, hB]
  cases B with
  | nil => simp at hB
  | cons y1 B1 =>
    have hy : y1 = y := by simpa using hB
    subst hy
    cases ksB with
    | nil => simp at hk
    | cons k1 ks1 =>
      have hk1 : k1 = κ := by simpa using hk
      subst hk1
      simp only [List.map_cons, List.cons.injEq] at hmapB
      dsimp only
      rw [hmapB.1]
      dsimp only
      rw [if_pos (by rw [compareKeys_eq_zero_iff])]

/-- Find when the at-or-above part does not start with the searched key. -/
theorem find_absent [LinearOrder K] [DecidableEq V] {sl : SkipList K V}
    {tour : List Nat} {ks : List K} (hrep : Represents sl tour ks)
    {A B : List Nat} {ksA ksB : List K} {κ : K}
    (htour : tour = A ++ B)
    (hmapA : A.map (keyAt sl) = ksA.map some)
    (hmapB : B.map (keyAt sl) = ksB.map some)
    (hkA : ∀ k ∈ ksA, k < κ) (hkB : ∀ k ∈ ksB, κ ≤ k)
    (habs : ksB.head? ≠ some κ) :
    Find sl κ = none := by
  have hlev1 : 1 ≤ sl.level := hrep.2.2.2.2.2.2.1
  rw [Find, findPred_pred hrep htour hmapA hmapB hkA hkB sl.level le_rfl 0 (Or.inl rfl),
    if_neg (by omega), fwd_pred0 hrep htour]
  cases B with
  | nil => rfl
  | cons y1 B1 =>
    cases ksB with
    | nil => simp at hmapB
    | cons k1 ks1 =>
      simp only [List.map_cons, List.cons.injEq] at hmapB
      simp only [List.head?_cons]
      rw [hmapB.1]
      dsimp only
      rw [if_neg (by
        rw [compareKeys_eq_zero_iff]
        intro hcontra
        exact habs (by simp [hcontra]))]

/-! ### Arena extension lemmas -/
theorem getNode_append_lt {sl : SkipList K V} {nd : SLNode K V} {lv sz : Nat} {z : Nat}
    (hz : z < sl.nodes.length) :
    getNode ⟨sl.nodes ++ [nd], lv, sz⟩ z = getNode sl z := by
  unfold getNode
  simp only [List.getD_eq_getElem?_getD, List.getElem?_append_left hz]

theorem getNode_append_self {sl : SkipList K V} {nd : SLNode K V} {lv sz : Nat} :
    getNode ⟨sl.nodes ++ [nd], lv, sz⟩ sl.nodes.length = nd := by
  unfold getNode
  simp only [List.getD_eq_getElem?_getD, List.getElem?_append_right (le_refl _)]
  simp

theorem fwd_append_lt {sl : SkipList K V} {nd : SLNode K V} {lv sz : Nat} {z j : Nat}
    (hz : z < sl.nodes.length) :
    fwd ⟨sl.nodes ++ [nd], lv, sz⟩ z j = fwd sl z j := by
  rw [fwd, getNode_append_lt hz]
  rfl

theorem keyAt_append_lt {sl : SkipList K V} {nd : SLNode K V} {lv sz : Nat} {z : Nat}
    (hz : z < sl.nodes.length) :
    keyAt ⟨sl.nodes ++ [nd], lv, sz⟩ z = keyAt sl z := by
  rw [keyAt, getNode_append_lt hz]
  rfl

theorem valueAt_append_lt {sl : SkipList K V} {nd : SLNode K V} {lv sz : Nat} {z : Nat}
    (hz : z < sl.nodes.length) :
    valueAt ⟨sl.nodes ++ [nd], lv, sz⟩ z = valueAt sl z := by
  rw [valueAt, getNode_append_lt hz]
  rfl

theorem height_append_lt {sl : SkipList K V} {nd : SLNode K V} {lv sz : Nat} {z : Nat}
    (hz : z < sl.nodes.length) :
    height ⟨sl.nodes ++ [nd], lv, sz⟩ z = height sl z := by
  rw [height, getNode_append_lt hz]
  rfl

/-! ### Retargeting the last link of a chain -/
/-- A chain whose internal links are untouched and whose final link is
redirected to `p1` is a chain to `p1`. -/
theorem links_retarget {sl st1 : SkipList K V} {i s : Nat} {l : List Nat} {m p1 : Ptr}
    (h : Links sl i s l m) (hnd : (s :: l).Nodup)
    (hev : ∀ u ∈ s :: l, u ≠ l.getLastD s → fwd st1 u i = fwd sl u i)
    (hlast : fwd st1 (l.getLastD s) i = p1) :
    Links st1 i s l p1 := by
  induction l generalizing s with
  | nil =>
    rw [links_nil]
    exact hlast
  | cons z t ih =>
    rw [links_cons] at h
    rw [links_cons]
    constructor
    · have hsne : s ≠ (z :: t).getLastD s := by
        have hmem : (z :: t).getLastD s ∈ z :: t := by
          rw [List.getLastD_cons]
          rcases getLastD_cases t z with hc | hc
          · rw [hc]
            simp
          · exact List.mem_cons_of_mem _ hc
        intro hcontra
        rw [← hcontra] at hmem
        exact (List.nodup_cons.mp hnd).1 hmem
      rw [hev s (by simp) hsne]
      exact h.1
    · refine ih h.2 (List.nodup_cons.mp hnd).2 ?_ ?_
      · intro u hu hune
        refine hev u (List.mem_cons_of_mem _ hu) ?_
        rw [List.getLastD_cons]
        exact hune
      · rw [← List.getLastD_cons (a := s)]
        exact hlast

/-! ### Splice loop characterization -/
/-- Effect of the `Insert` splice loop: processing levels `c, c+1, …, lvl-1`
starting from a state where levels below `c` are already spliced, the final
state differs from `st0` exactly on the slots `(newIdx, j)` (now the old
`update[j]` successor) and `(update[j], j)` (now `newIdx`) for `j < lvl`. -/
theorem spliceLoop_spec {updates : List Nat} {newIdx lvl : Nat} {st0 : SkipList K V}
    (hnew_lt : newIdx < st0.nodes.length)
    (hnew_h : lvl ≤ height st0 newIdx)
    (hupd : ∀ i < lvl, updAt updates i < st0.nodes.length ∧ updAt updates i ≠ newIdx ∧
      i < height st0 (updAt updates i)) :
    ∀ (t c : Nat) (st : SkipList K V), c + t = lvl →
    st.nodes.length = st0.nodes.length →
    (∀ z, height st z = height st0 z) →
    (∀ z, keyAt st z = keyAt st0 z) →
    (∀ z, valueAt st z = valueAt st0 z) →
    st.level = st0.level →
    st.size = st0.size →
    (∀ z j, ¬(z = newIdx ∧ j < c) → ¬(z = updAt updates j ∧ j < c) →
      fwd st z j = fwd st0 z j) →
    (∀ j, j < c →
      fwd st newIdx j = fwd st0 (updAt updates j) j ∧
      fwd st (updAt updates j) j = some newIdx) →
    ((spliceLoop updates newIdx st c t).nodes.length = st0.nodes.length ∧
     (∀ z, height (spliceLoop updates newIdx st c t) z = height st0 z) ∧
     (∀ z, keyAt (spliceLoop updates newIdx st c t) z = keyAt st0 z) ∧
     (∀ z, valueAt (spliceLoop updates newIdx st c t) z = valueAt st0 z) ∧
     (spliceLoop updates newIdx st c t).level = st0.level ∧
     (spliceLoop updates newIdx st c t).size = st0.size ∧
     (∀ z j, ¬(z = newIdx ∧ j < lvl) → ¬(z = updAt updates j ∧ j < lvl) →
       fwd (spliceLoop updates newIdx st c t) z j = fwd st0 z j) ∧
     (∀ j, j < lvl →
       fwd (spliceLoop updates newIdx st c t) newIdx j = fwd st0 (updAt updates j) j ∧
       fwd (spliceLoop updates newIdx st c t) (updAt updates j) j = some newIdx)) := by
  intro t
  induction t with
  | zero =>
    intro c st hc hlen hh hk hv hlv hsz hold hnew
    have hceq : c = lvl := by omega
    subst hceq
    exact ⟨hlen, hh, hk, hv, hlv, hsz, hold, hnew⟩
  | succ t ih =>
    intro c st hc hlen hh hk hv hlv hsz hold hnew
    have hclt : c < lvl := by omega
    obtain ⟨hu_lt, hu_ne, hu_h⟩ := hupd c hclt
    rw [spliceLoop]
    refine ih (c + 1) _ (by omega) ?_ ?_ ?_ ?_ ?_ ?_ ?_ ?_
    · rw [nodes_length_setFwd, nodes_length_setFwd, hlen]
    · intro z
      rw [height_setFwd, height_setFwd, hh]
    · intro z
      rw [keyAt_setFwd, keyAt_setFwd, hk]
    · intro z
      rw [valueAt_setFwd, valueAt_setFwd, hv]
    · rw [level_setFwd, level_setFwd, hlv]
    · rw [size_setFwd, size_setFwd, hsz]
    · intro z j hz1 hz2
      have hz1c : ¬(z = newIdx ∧ j < c) := fun ⟨h1, h2⟩ => hz1 ⟨h1, by omega⟩
      have hz2c : ¬(z = updAt updates j ∧ j < c) := fun ⟨h1, h2⟩ => hz2 ⟨h1, by omega⟩
      have hne1 : z ≠ updAt updates c ∨ j ≠ c := by
        by_cases hj : j = c
        · subst hj
          left
          intro hcontra
          exact hz2 ⟨hcontra, by omega⟩
        · right
          exact hj
      have hne2 : z ≠ newIdx ∨ j ≠ c := by
        by_cases hj : j = c
        · subst hj
          left
          intro hcontra
          exact hz1 ⟨hcontra, by omega⟩
        · right
          exact hj
      rw [fwd_setFwd_ne _ _ hne1, fwd_setFwd_ne _ _ hne2]
      exact hold z j hz1c hz2c
    · intro j hj
      by_cases hjc : j = c
      · subst hjc
        constructor
        · rw [fwd_setFwd_ne _ _ (Or.inl (Ne.symm hu_ne))]
          rw [fwd_setFwd_self _ _ (by rw [hlen]; exact hnew_lt)
            (by rw [hh]; omega)]
          exact hold _ _ (by omega) (by omega)
        · rw [fwd_setFwd_self _ _
            (by rw [nodes_length_setFwd, hlen]; exact hu_lt)
            (by rw [height_setFwd, hh]; exact hu_h)]
      · have hjlt : j < c := by omega
        constructor
        · rw [fwd_setFwd_ne _ _ (Or.inr hjc), fwd_setFwd_ne _ _ (Or.inr hjc)]
          exact (hnew j hjlt).1
        · rw [fwd_setFwd_ne _ _ (Or.inr hjc), fwd_setFwd_ne _ _ (Or.inr hjc)]
          exact (hnew j hjlt).2

/-! ### Insert: preparatory lemmas -/
theorem fwd_mk (s : SkipList K V) (lv n z j : Nat) :
    fwd ⟨s.nodes, lv, n⟩ z j = fwd s z j := rfl

theorem keyAt_mk (s : SkipList K V) (lv n z : Nat) :
    keyAt ⟨s.nodes, lv, n⟩ z = keyAt s z := rfl

theorem valueAt_mk (s : SkipList K V) (lv n z : Nat) :
    valueAt ⟨s.nodes, lv, n⟩ z = valueAt s z := rfl

theorem height_mk (s : SkipList K V) (lv n z : Nat) :
    height ⟨s.nodes, lv, n⟩ z = height s z := rfl

theorem predAt_eq_zero {sl : SkipList K V} {A : List Nat} {i : Nat}
    (h : ∀ z ∈ A, height sl z ≤ i) : predAt sl A i = 0 := by
  rw [predAt]
  have hnil : Fil sl i A = [] := by
    rw [Fil]
    refine List.filter_eq_nil.mpr ?_
    intro z hz
    simpa using Nat.not_lt.mpr (h z hz)
  rw [hnil]
  rfl

/-- The full `update` array read through `updAt` is the predecessor array at
every index (indices at or above the active level read the head, which is
also the predecessor there since no node reaches those levels). -/
theorem updAt_descend [LinearOrder K] [DecidableEq V] {sl : SkipList K V}
    {tour : List Nat} {ks : List K} (hrep : Represents sl tour ks)
    {A B : List Nat} {ksA ksB : List K} {κ : K}
    (htour : tour = A ++ B)
    (hmapA : A.map (keyAt sl) = ksA.map some)
    (hmapB : B.map (keyAt sl) = ksB.map some)
    (hkA : ∀ k ∈ ksA, k < κ) (hkB : ∀ k ∈ ksB, κ ≤ k) :
    ∀ i, updAt (descend sl κ sl.level 0) i = predAt sl A i := by
  intro i
  rw [descend_pred hrep htour hmapA hmapB hkA hkB sl.level le_rfl 0 (Or.inl rfl),
    updAt_range_map]
  by_cases h : i < sl.level
  · rw [if_pos h]
  · rw [if_neg h]
    have hmem := hrep.2.2.2.2.2.1
    refine (predAt_eq_zero ?_).symm
    intro z hz
    have := (hmem z (by rw [htour]; exact List.mem_append_left _ hz)).2.2.2.2
    omega

/-- Membership facts for `A` under the split. -/
theorem split_memA [LinearOrder K] {sl : SkipList K V}
    {tour : List Nat} {ks : List K} (hrep : Represents sl tour ks)
    {A B : List Nat} (htour : tour = A ++ B) {z : Nat} (hz : z ∈ A) :
    z ≠ 0 ∧ z < sl.nodes.length ∧ valueAt sl z ≠ none ∧
    1 ≤ height sl z ∧ height sl z ≤ sl.level :=
  hrep.2.2.2.2.2.1 z (by rw [htour]; exact List.mem_append_left _ hz)

theorem split_memB [LinearOrder K] {sl : SkipList K V}
    {tour : List Nat} {ks : List K} (hrep : Represents sl tour ks)
    {A B : List Nat} (htour : tour = A ++ B) {z : Nat} (hz : z ∈ B) :
    z ≠ 0 ∧ z < sl.nodes.length ∧ valueAt sl z ≠ none ∧
    1 ≤ height sl z ∧ height sl z ≤ sl.level :=
  hrep.2.2.2.2.2.1 z (by rw [htour]; exact List.mem_append_right _ hz)

/-- The level-`i` predecessor is the head or an `A` node, is in range, and
participates in level `i` (when `i` is a possible level). -/
theorem predAt_facts [LinearOrder K] {sl : SkipList K V}
    {tour : List Nat} {ks : List K} (hrep : Represents sl tour ks)
    {A B : List Nat} (htour : tour = A ++ B) {i : Nat} (hi : i < maxLevel) :
    predAt sl A i < sl.nodes.length ∧ i < height sl (predAt sl A i) ∧
    (predAt sl A i = 0 ∨ predAt sl A i ∈ A) := by
  have hlen := hrep.1
  have hh0 := hrep.2.2.1
  rcases getLastD_cases (Fil sl i A) 0 with h | h
  · rw [predAt, h]
    exact ⟨hlen, by rw [hh0]; exact hi, Or.inl rfl⟩
  · have hA : (Fil sl i A).getLastD 0 ∈ A := Fil_subset h
    have hmemfil := h
    rw [Fil, List.mem_filter] at hmemfil
    have hf : i < height sl ((Fil sl i A).getLastD 0) := of_decide_eq_true hmemfil.2
    rw [predAt]
    exact ⟨(split_memA hrep htour hA).2.1, hf, Or.inr hA⟩

/-- In-place value update keeps the representation (with the updated node's
new value). -/
theorem represents_setValue [LinearOrder K] [DecidableEq V] {sl : SkipList K V}
    {tour : List Nat} {ks : List K} (hrep : Represents sl tour ks)
    {y : Nat} (hy : y ∈ tour) (v : V) :
    Represents (setValue sl y v) tour ks := by
  obtain ⟨hlen, hk0, hh0, hmap, hsort, hmem, hlev1, hlevmax, hsize, hchains, htop⟩ := hrep
  have hylt : y < sl.nodes.length := (hmem y hy).2.1
  refine ⟨?_, ?_, ?_, ?_, hsort, ?_, ?_, ?_, ?_, ?_, ?_⟩
  · rw [nodes_length_setValue]
    exact hlen
  · rw [keyAt_setValue]
    exact hk0
  · rw [height_setValue]
    exact hh0
  · rw [List.map_congr_left (fun z _ => keyAt_setValue sl y v z)]
    exact hmap
  · intro x hx
    obtain ⟨h1, h2, h3, h4, h5⟩ := hmem x hx
    refine ⟨h1, by rw [nodes_length_setValue]; exact h2, ?_,
      by rw [height_setValue]; exact h4, by rw [height_setValue, level_setValue]; exact h5⟩
    by_cases hxy : x = y
    · subst hxy
      rw [valueAt_setValue_self sl v hylt]
      simp
    · rw [valueAt_setValue_ne sl v hxy]
      exact h3
  · rw [level_setValue]
    exact hlev1
  · rw [level_setValue]
    exact hlevmax
  · rw [size_setValue]
    exact hsize
  · intro i hi
    have hfil : tour.filter (fun x => decide (i < height (setValue sl y v) x)) =
        tour.filter (fun x => decide (i < height sl x)) := by
      refine List.filter_congr ?_
      intro x _
      rw [height_setValue]
    rw [hfil]
    refine links_congr ?_ (hchains i hi)
    intro u _
    rw [fwd_setValue]
  · rw [level_setValue, fwd_setValue]
    exact htop

/-- When the level-0 successor carries the searched key, `Insert` takes the
update-in-place branch. -/
theorem insert_hit_eq [LinearOrder K] [DecidableEq V] {sl : SkipList K V}
    {tour : List Nat} {ks : List K} (hrep : Represents sl tour ks)
    {A B : List Nat} {ksA ksB : List K} {κ : K}
    (htour : tour = A ++ B)
    (hmapA : A.map (keyAt sl) = ksA.map some)
    (hmapB : B.map (keyAt sl) = ksB.map some)
    (hkA : ∀ k ∈ ksA, k < κ) (hkB : ∀ k ∈ ksB, κ ≤ k)
    {y : Nat} (hB : B.head? = some y) (hk : ksB.head? = some κ) (v : V) (lvl : Nat) :
    Insert sl κ v lvl = setValue sl y v := by
  have hupd0 := updAt_descend hrep htour hmapA hmapB hkA hkB 0
  rw [Insert, hupd0, fwd_pred0 hrep htour, hB]
  cases B with
  | nil => simp at hB
  | cons y1 B1 =>
    have hy : y1 = y := by simpa using hB
    subst hy
    cases ksB with
    | nil => simp at hk
    | cons k1 ks1 =>
      have hk1 : k1 = κ := by simpa using hk
      subst hk1
      simp only [List.map_cons, List.cons.injEq] at hmapB
      dsimp only
      rw [hmapB.1]
      dsimp only
      rw [if_pos (by rw [compareKeys_eq_zero_iff])]

/-- When the level-0 successor does not carry the searched key, `Insert`
takes the new-node branch, yielding the spliced state with size bumped. -/
theorem insert_new_eq [LinearOrder K] [DecidableEq V] {sl : SkipList K V}
    {tour : List Nat} {ks : List K} (hrep : Represents sl tour ks)
    {A B : List Nat} {ksA ksB : List K} {κ : K}
    (htour : tour = A ++ B)
    (hmapA : A.map (keyAt sl) = ksA.map some)
    (hmapB : B.map (keyAt sl) = ksB.map some)
    (hkA : ∀ k ∈ ksA, k < κ) (hkB : ∀ k ∈ ksB, κ ≤ k)
    (habs : ksB.head? ≠ some κ) (v : V) (lvl : Nat) :
    Insert sl κ v lvl =
      ⟨(spliceLoop (descend sl κ sl.level 0) sl.nodes.length
          ⟨sl.nodes ++ [⟨some κ, some v, List.replicate lvl none⟩],
            if lvl > sl.level then lvl else sl.level, sl.size⟩ 0 lvl).nodes,
        (spliceLoop (descend sl κ sl.level 0) sl.nodes.length
          ⟨sl.nodes ++ [⟨some κ, some v, List.replicate lvl none⟩],
            if lvl > sl.level then lvl else sl.level, sl.size⟩ 0 lvl).level,
        sl.size + 1⟩ := by
  have hupd0 := updAt_descend hrep htour hmapA hmapB hkA hkB 0
  rw [Insert, hupd0, fwd_pred0 hrep htour]
  cases B with
  | nil => rfl
  | cons y1 B1 =>
    cases ksB with
    | nil => simp at hmapB
    | cons k1 ks1 =>
      simp only [List.map_cons, List.cons.injEq] at hmapB
      simp only [List.head?_cons]
      rw [hmapB.1]
      dsimp only
      rw [if_neg (by
        rw [compareKeys_eq_zero_iff]
        intro hcontra
        exact habs (by simp [hcontra]))]

/-- Abstract form of the new-node case: a state that agrees with `sl` on
all old slots except the spliced forward pointers, and carries the new node
at index `sl.nodes.length`, represents the association list with the new
key inserted at its sorted position. -/
theorem represents_new_abstract [LinearOrder K] {sl st1 : SkipList K V}
    {tour : List Nat} {ks : List K} (hrep : Represents sl tour ks)
    {A B : List Nat} {ksA ksB : List K} {κ : K}
    (htour : tour = A ++ B) (hks : ks = ksA ++ ksB)
    (hmapA : A.map (keyAt sl) = ksA.map some)
    (hmapB : B.map (keyAt sl) = ksB.map some)
    (hkA : ∀ k ∈ ksA, k < κ) (hkB : ∀ k ∈ ksB, κ ≤ k)
    (habs : ksB.head? ≠ some κ) (v : V) {lvl : Nat}
    (hlvl1 : 1 ≤ lvl) (hlvlmax : lvl ≤ maxLevel)
    (hplen : st1.nodes.length = sl.nodes.length + 1)
    (hK : ∀ z, z < sl.nodes.length → keyAt st1 z = keyAt sl z)
    (hKnew : keyAt st1 sl.nodes.length = some κ)
    (hV : ∀ z, z < sl.nodes.length → valueAt st1 z = valueAt sl z)
    (hVnew : valueAt st1 sl.nodes.length = some v)
    (hH : ∀ z, z < sl.nodes.length → height st1 z = height sl z)
    (hHnew : height st1 sl.nodes.length = lvl)
    (hlev : st1.level = if lvl > sl.level then lvl else sl.level)
    (hsz : st1.size = sl.size + 1)
    (hfwd_old : ∀ z j, z < sl.nodes.length → ¬(z = predAt sl A j ∧ j < lvl) →
      fwd st1 z j = fwd sl z j)
    (hfwd_new : ∀ j, j < lvl →
      fwd st1 sl.nodes.length j = fwd sl (predAt sl A j) j ∧
      fwd st1 (predAt sl A j) j = some sl.nodes.length) :
    Represents st1 (A ++ sl.nodes.length :: B) (ksA ++ κ :: ksB) := by
  have hlen := hrep.1
  have hk0 := hrep.2.1
  have hh0 := hrep.2.2.1
  have hmap := hrep.2.2.2.1
  have hsort := hrep.2.2.2.2.1
  have hlev1 := hrep.2.2.2.2.2.2.1
  have hlevmax := hrep.2.2.2.2.2.2.2.1
  have hsize := hrep.2.2.2.2.2.2.2.2.1
  have hchains := hrep.2.2.2.2.2.2.2.2.2.1
  have htop := hrep.2.2.2.2.2.2.2.2.2.2
  refine ⟨?_, ?_, ?_, ?_, ?_, ?_, ?_, ?_, ?_, ?_, ?_⟩
  · rw [hplen]
    omega
  · rw [hK 0 hlen]
    exact hk0
  · rw [hH 0 hlen]
    exact hh0
  · have hA1 : A.map (keyAt st1) = ksA.map some := by
      calc A.map (keyAt st1) = A.map (keyAt sl) :=
            List.map_congr_left (fun z hz => hK z (split_memA hrep htour hz).2.1)
        _ = ksA.map some := hmapA
    have hB1 : B.map (keyAt st1) = ksB.map some := by
      calc B.map (keyAt st1) = B.map (keyAt sl) :=
            List.map_congr_left (fun z hz => hK z (split_memB hrep htour hz).2.1)
        _ = ksB.map some := hmapB
    rw [List.map_append, List.map_append, List.map_cons, List.map_cons, hA1, hB1, hKnew]
  · rw [hks] at hsort
    obtain ⟨hcA, hcB, hcross⟩ := List.chain'_append.mp hsort
    refine List.chain'_append.mpr ⟨hcA, ?_, ?_⟩
    · refine List.chain'_cons'.mpr ⟨?_, hcB⟩
      intro y hy
      have hy1 : ksB.head? = some y := hy
      have h1 : κ ≤ y := hkB y (List.mem_of_mem_head? hy)
      have h2 : y ≠ κ := by
        intro hcontra
        exact habs (by rw [hy1, hcontra])
      exact lt_of_le_of_ne h1 (Ne.symm h2)
    · intro x hx y hy
      rw [List.head?_cons, Option.mem_some_iff] at hy
      subst hy
      exact hkA x (List.mem_of_mem_getLast? hx)
  · intro x hx
    rcases List.mem_append.mp hx with hxA | hxB1
    · obtain ⟨h1, h2, h3, h4, h5⟩ := split_memA hrep htour hxA
      refine ⟨h1, by rw [hplen]; omega, ?_, ?_, ?_⟩
      · rw [hV x h2]
        exact h3
      · rw [hH x h2]
        exact h4
      · rw [hH x h2, hlev]
        split <;> omega
    · rcases List.mem_cons.mp hxB1 with rfl | hxB
      · refine ⟨by omega, by rw [hplen]; omega, ?_, ?_, ?_⟩
        · rw [hVnew]
          simp
        · rw [hHnew]
          omega
        · rw [hHnew, hlev]
          split <;> omega
      · obtain ⟨h1, h2, h3, h4, h5⟩ := split_memB hrep htour hxB
        refine ⟨h1, by rw [hplen]; omega, ?_, ?_, ?_⟩
        · rw [hV x h2]
          exact h3
        · rw [hH x h2]
          exact h4
        · rw [hH x h2, hlev]
          split <;> omega
  · rw [hlev]
    split <;> omega
  · rw [hlev]
    split <;> omega
  · rw [hsz, hsize, htour]
    simp only [List.length_append, List.length_cons]
    omega
  · intro i hi
    have hfilA : (A.filter fun x => decide (i < height st1 x)) = Fil sl i A := by
      rw [Fil]
      refine List.filter_congr ?_
      intro z hz
      rw [hH z (split_memA hrep htour hz).2.1]
    have hfilB : (B.filter fun x => decide (i < height st1 x)) = Fil sl i B := by
      rw [Fil]
      refine List.filter_congr ?_
      intro z hz
      rw [hH z (split_memB hrep htour hz).2.1]
    have hold := hchains i hi
    rw [htour] at hold
    have hfold : (A ++ B).filter (fun x => decide (i < height sl x)) =
        Fil sl i A ++ Fil sl i B := by
      rw [← Fil_append]
      rfl
    rw [hfold] at hold
    have hnd := tour_nodup hmap hsort
    rw [htour] at hnd
    have hndA : (Fil sl i A).Nodup := by
      rw [Fil]
      exact (List.Nodup.of_append_left hnd).filter _
    have h0A : 0 ∉ Fil sl i A := fun hc => (split_memA hrep htour (Fil_subset hc)).1 rfl
    have hnd0A : (0 :: Fil sl i A).Nodup := List.nodup_cons.mpr ⟨h0A, hndA⟩
    simp only [List.filter_append, List.filter_cons]
    rw [hHnew, hfilA, hfilB]
    by_cases hil : i < lvl
    · rw [if_pos (decide_eq_true hil)]
      have hpart1 : ∀ m : Ptr, Links sl i 0 (Fil sl i A) m →
          Links st1 i 0 (Fil sl i A) (some sl.nodes.length) := by
        intro m hm
        refine links_retarget hm hnd0A ?_ ?_
        · intro u hu hne
          have hu_lt : u < sl.nodes.length := by
            rcases List.mem_cons.mp hu with rfl | hu1
            · exact hlen
            · exact (split_memA hrep htour (Fil_subset hu1)).2.1
          refine hfwd_old u i hu_lt ?_
          rintro ⟨hup, -⟩
          exact hne hup
        · exact (hfwd_new i hil).2
      cases hFB : Fil sl i B with
      | nil =>
        rw [hFB] at hold
        rw [List.append_nil] at hold
        rw [links_append]
        refine ⟨hpart1 none hold, ?_⟩
        rw [links_nil, (hfwd_new i hil).1]
        exact hold.2
      | cons y F1 =>
        rw [hFB] at hold
        obtain ⟨holdA, holdB⟩ := links_append.mp hold
        rw [links_append]
        refine ⟨hpart1 (some y) holdA, ?_⟩
        rw [links_cons]
        refine ⟨?_, ?_⟩
        · rw [(hfwd_new i hil).1]
          exact holdA.2
        · refine links_congr ?_ holdB
          intro u hu
          have huB : u ∈ Fil sl i B := by
            rw [hFB]
            exact hu
          have hu_lt : u < sl.nodes.length := (split_memB hrep htour (Fil_subset huB)).2.1
          refine hfwd_old u i hu_lt ?_
          rintro ⟨hup, -⟩
          obtain ⟨hp_lt, hp_h, hp_mem⟩ := predAt_facts hrep htour hi
          rcases hp_mem with h0 | hA1
          · exact (split_memB hrep htour (Fil_subset huB)).1 (by rw [hup, h0])
          · have hdisj := List.disjoint_of_nodup_append hnd
            exact hdisj (hup ▸ hA1) (Fil_subset huB)
    · rw [if_neg (by simpa using hil)]
      refine links_congr ?_ hold
      intro u hu
      have hu_lt : u < sl.nodes.length := by
        rcases List.mem_cons.mp hu with rfl | hu1
        · exact hlen
        · rcases List.mem_append.mp hu1 with h | h
          · exact (split_memA hrep htour (Fil_subset h)).2.1
          · exact (split_memB hrep htour (Fil_subset h)).2.1
      exact hfwd_old u i hu_lt (fun hcontra => hil hcontra.2)
  · by_cases hgt : lvl > sl.level
    · rw [hlev, if_pos hgt]
      by_cases h1 : lvl = 1
      · exact Or.inl h1
      · refine Or.inr ?_
        have hlt : lvl - 1 < lvl := by omega
        have hpz : predAt sl A (lvl - 1) = 0 := by
          refine predAt_eq_zero ?_
          intro z hz
          have := (split_memA hrep htour hz).2.2.2.2
          omega
        have hw := (hfwd_new (lvl - 1) hlt).2
        rw [hpz] at hw
        rw [hw]
        simp
    · rw [hlev, if_neg hgt]
      rcases htop with h1 | h1
      · exact Or.inl h1
      · refine Or.inr ?_
        by_cases hw : (0 : Nat) = predAt sl A (sl.level - 1) ∧ sl.level - 1 < lvl
        · have hq := (hfwd_new (sl.level - 1) hw.2).2
          rw [← hw.1] at hq
          rw [hq]
          simp
        · rw [hfwd_old 0 (sl.level - 1) hlen hw]
          exact h1

/-- The new-node case of `Insert`: the result represents the tour with the
new arena index inserted between the below and at-or-above parts, carrying
the new key; size grows by one and one node is appended. -/
theorem insert_new_spec [LinearOrder K] [DecidableEq V] {sl : SkipList K V}
    {tour : List Nat} {ks : List K} (hrep : Represents sl tour ks)
    {A B : List Nat} {ksA ksB : List K} {κ : K}
    (htour : tour = A ++ B) (hks : ks = ksA ++ ksB)
    (hmapA : A.map (keyAt sl) = ksA.map some)
    (hmapB : B.map (keyAt sl) = ksB.map some)
    (hkA : ∀ k ∈ ksA, k < κ) (hkB : ∀ k ∈ ksB, κ ≤ k)
    (habs : ksB.head? ≠ some κ) (v : V) {lvl : Nat}
    (hlvl1 : 1 ≤ lvl) (hlvlmax : lvl ≤ maxLevel) :
    Represents (Insert sl κ v lvl) (A ++ sl.nodes.length :: B) (ksA ++ κ :: ksB) ∧
    (Insert sl κ v lvl).size = sl.size + 1 ∧
    (Insert sl κ v lvl).nodes.length = sl.nodes.length + 1 := by
  have hlen := hrep.1
  have hupdA := updAt_descend hrep htour hmapA hmapB hkA hkB
  rw [insert_new_eq hrep htour hmapA hmapB hkA hkB habs v lvl]
  set nd : SLNode K V := ⟨some κ, some v, List.replicate lvl none⟩ with hnd
  set st0 : SkipList K V :=
    ⟨sl.nodes ++ [nd], if lvl > sl.level then lvl else sl.level, sl.size⟩ with hst0
  set stf : SkipList K V :=
    spliceLoop (descend sl κ sl.level 0) sl.nodes.length st0 0 lvl with hstf
  have hnew_lt : sl.nodes.length < st0.nodes.length := by
    rw [hst0]
    simp
  have hnewh : lvl ≤ height st0 sl.nodes.length := by
    rw [hst0, height, getNode_append_self, hnd]
    simp
  have hupd : ∀ i < lvl, updAt (descend sl κ sl.level 0) i < st0.nodes.length ∧
      updAt (descend sl κ sl.level 0) i ≠ sl.nodes.length ∧
      i < height st0 (updAt (descend sl κ sl.level 0) i) := by
    intro i hi
    have himax : i < maxLevel := by omega
    obtain ⟨hp_lt, hp_h, _⟩ := predAt_facts hrep htour himax
    rw [hupdA i]
    refine ⟨?_, by omega, ?_⟩
    · rw [hst0]
      simp only [List.length_append, List.length_cons, List.length_nil]
      omega
    · rw [hst0, height_append_lt hp_lt]
      exact hp_h
  obtain ⟨hslen, hsh, hskey, hsval, hslv, hssz, hsold, hsnew⟩ :=
    spliceLoop_spec hnew_lt hnewh hupd lvl 0 st0 (by omega) rfl (fun z => rfl)
      (fun z => rfl) (fun z => rfl) rfl rfl (fun z j h1 h2 => rfl)
      (fun j hj => absurd hj (by omega))
  rw [← hstf] at hslen hsh hskey hsval hslv hssz hsold hsnew
  refine ⟨represents_new_abstract hrep htour hks hmapA hmapB hkA hkB habs v hlvl1 hlvlmax
    ?_ ?_ ?_ ?_ ?_ ?_ ?_ ?_ ?_ ?_ ?_, rfl, ?_⟩
  · show stf.nodes.length = sl.nodes.length + 1
    rw [hslen, hst0]
    simp
  · intro z hz
    rw [keyAt_mk, hskey z, hst0, keyAt_append_lt hz]
  · rw [keyAt_mk, hskey, hst0, keyAt, getNode_append_self, hnd]
  · intro z hz
    rw [valueAt_mk, hsval z, hst0, valueAt_append_lt hz]
  · rw [valueAt_mk, hsval, hst0, valueAt, getNode_append_self, hnd]
  · intro z hz
    rw [height_mk, hsh z, hst0, height_append_lt hz]
  · rw [height_mk, hsh, hst0, height, getNode_append_self, hnd]
    simp
  · show stf.level = if lvl > sl.level then lvl else sl.level
    rw [hslv, hst0]
  · rfl
  · intro z j hz hcond
    rw [fwd_mk, hsold z j (by rintro ⟨h, -⟩; omega)
      (by rw [hupdA j]; exact hcond), hst0, fwd_append_lt hz]
  · intro j hj
    have hq := hsnew j hj
    rw [hupdA j] at hq
    have himax : j < maxLevel := by omega
    obtain ⟨hp_lt, _, _⟩ := predAt_facts hrep htour himax
    refine ⟨?_, ?_⟩
    · rw [fwd_mk, hq.1, hst0, fwd_append_lt hp_lt]
    · rw [fwd_mk]
      exact hq.2
  · show stf.nodes.length = sl.nodes.length + 1
    rw [hslen, hst0]
    simp

/-! ### Delete -/
/-- The forward pointer out of the level-`i` predecessor is the head of the
level-`i` part of the at-or-above tour. -/
theorem fwd_pred [LinearOrder K] [DecidableEq V] {sl : SkipList K V}
    {tour : List Nat} {ks : List K} (hrep : Represents sl tour ks)
    {A B : List Nat} (htour : tour = A ++ B) {i : Nat} (hi : i < maxLevel) :
    fwd sl (predAt sl A i) i = (Fil sl i B).head? := by
  obtain ⟨hchain, _⟩ := split_chain_fuel hrep htour hi
  rw [predAt]
  cases hFB : Fil sl i B with
  | nil =>
    rw [hFB, List.append_nil] at hchain
    exact hchain.2
  | cons y F1 =>
    rw [hFB] at hchain
    exact (links_append.mp hchain).1.2

/-- When the level-0 successor does not carry the searched key, `Delete`
returns `false` with the state untouched. -/
theorem delete_absent_eq [LinearOrder K] [DecidableEq V] {sl : SkipList K V}
    {tour : List Nat} {ks : List K} (hrep : Represents sl tour ks)
    {A B : List Nat} {ksA ksB : List K} {κ : K}
    (htour : tour = A ++ B)
    (hmapA : A.map (keyAt sl) = ksA.map some)
    (hmapB : B.map (keyAt sl) = ksB.map some)
    (hkA : ∀ k ∈ ksA, k < κ) (hkB : ∀ k ∈ ksB, κ ≤ k)
    (habs : ksB.head? ≠ some κ) :
    Delete sl κ = (false, sl) := by
  have hupd0 := updAt_descend hrep htour hmapA hmapB hkA hkB 0
  rw [Delete, hupd0, fwd_pred0 hrep htour]
  cases B with
  | nil => rfl
  | cons y1 B1 =>
    cases ksB with
    | nil => simp at hmapB
    | cons k1 ks1 =>
      simp only [List.map_cons, List.cons.injEq] at hmapB
      simp only [List.head?_cons]
      rw [hmapB.1]
      dsimp only
      rw [if_pos (by
        rw [Ne, compareKeys_eq_zero_iff]
        intro hcontra
        exact habs (by simp [hcontra]))]

/-- When the level-0 successor carries the searched key, `Delete` unlinks
it, shrinks the level, decrements the count and reports success. -/
theorem delete_present_eq [LinearOrder K] [DecidableEq V] {sl : SkipList K V}
    {tour : List Nat} {ks : List K} (hrep : Represents sl tour ks)
    {A B : List Nat} {ksA ksB : List K} {κ : K}
    (htour : tour = A ++ B)
    (hmapA : A.map (keyAt sl) = ksA.map some)
    (hmapB : B.map (keyAt sl) = ksB.map some)
    (hkA : ∀ k ∈ ksA, k < κ) (hkB : ∀ k ∈ ksB, κ ≤ k)
    {y : Nat} (hB : B.head? = some y) (hk : ksB.head? = some κ) :
    Delete sl κ = (true,
      ⟨(shrinkLevel (unlinkLoop (descend sl κ sl.level 0) y sl 0 sl.level)
          (unlinkLoop (descend sl κ sl.level 0) y sl 0 sl.level).level).nodes,
       (shrinkLevel (unlinkLoop (descend sl κ sl.level 0) y sl 0 sl.level)
          (unlinkLoop (descend sl κ sl.level 0) y sl 0 sl.level).level).level,
       (shrinkLevel (unlinkLoop (descend sl κ sl.level 0) y sl 0 sl.level)
          (unlinkLoop (descend sl κ sl.level 0) y sl 0 sl.level).level).size - 1⟩) := by
  have hupd0 := updAt_descend hrep htour hmapA hmapB hkA hkB 0
  rw [Delete, hupd0, fwd_pred0 hrep htour, hB]
  cases B with
  | nil => simp at hB
  | cons y1 B1 =>
    have hy : y1 = y := by simpa using hB
    subst hy
    cases ksB with
    | nil => simp at hk
    | cons k1 ks1 =>
      have hk1 : k1 = κ := by simpa using hk
      subst hk1
      simp only [List.map_cons, List.cons.injEq] at hmapB
      dsimp only
      rw [hmapB.1]
      dsimp only
      rw [if_neg (not_not_intro ((compareKeys_eq_zero_iff _ _).mpr rfl))]

/-- Effect of the unlink loop of `Delete`: with the update array pointing
at the target node exactly below the target's height, the loop bypasses the
target at each of those levels and touches nothing else. -/
theorem unlinkLoop_spec [DecidableEq V] {sl : SkipList K V} {updates : List Nat} {y hy : Nat}
    (hcond : ∀ i, i < sl.level → (fwd sl (updAt updates i) i = some y ↔ i < hy))
    (hyne : ∀ i, i < sl.level → y ≠ updAt updates i)
    (hupd : ∀ i, i < hy → updAt updates i < sl.nodes.length ∧
      i < height sl (updAt updates i))
    (hhy : hy ≤ sl.level) :
    ∀ (t c : Nat) (st : SkipList K V), c + t = sl.level →
    st.nodes.length = sl.nodes.length →
    (∀ z, height st z = height sl z) →
    (∀ z, keyAt st z = keyAt sl z) →
    (∀ z, valueAt st z = valueAt sl z) →
    st.level = sl.level →
    st.size = sl.size →
    (∀ z j, ¬(z = updAt updates j ∧ j < min c hy) → fwd st z j = fwd sl z j) →
    (∀ j, j < min c hy → fwd st (updAt updates j) j = fwd sl y j) →
    ((unlinkLoop updates y st c t).nodes.length = sl.nodes.length ∧
     (∀ z, height (unlinkLoop updates y st c t) z = height sl z) ∧
     (∀ z, keyAt (unlinkLoop updates y st c t) z = keyAt sl z) ∧
     (∀ z, valueAt (unlinkLoop updates y st c t) z = valueAt sl z) ∧
     (unlinkLoop updates y st c t).level = sl.level ∧
     (unlinkLoop updates y st c t).size = sl.size ∧
     (∀ z j, ¬(z = updAt updates j ∧ j < hy) →
       fwd (unlinkLoop updates y st c t) z j = fwd sl z j) ∧
     (∀ j, j < hy → fwd (unlinkLoop updates y st c t) (updAt updates j) j = fwd sl y j)) := by
  intro t
  induction t with
  | zero =>
    intro c st hc hlen hh hk hv hlv hsz hold hnew
    have hmin : min c hy = hy := by omega
    rw [hmin] at hold hnew
    exact ⟨hlen, hh, hk, hv, hlv, hsz, hold, hnew⟩
  | succ t ih =>
    intro c st hc hlen hh hk hv hlv hsz hold hnew
    have hclt : c < sl.level := by omega
    have hfc : fwd st (updAt updates c) c = fwd sl (updAt updates c) c :=
      hold _ _ (by rintro ⟨-, h2⟩; omega)
    rw [unlinkLoop]
    by_cases hcy : c < hy
    · rw [if_pos (by rw [hfc]; exact (hcond c hclt).mpr hcy)]
      obtain ⟨hu_lt, hu_h⟩ := hupd c hcy
      have hu_lt1 : updAt updates c < st.nodes.length := by
        rw [hlen]
        exact hu_lt
      have hu_h1 : c < height st (updAt updates c) := by
        rw [hh]
        exact hu_h
      have hyc : fwd st y c = fwd sl y c :=
        hold y c (by rintro ⟨h1, -⟩; exact hyne c hclt h1)
      refine ih (c + 1) _ (by omega) ?_ ?_ ?_ ?_ ?_ ?_ ?_ ?_
      · rw [nodes_length_setFwd]
        exact hlen
      · intro z
        rw [height_setFwd]
        exact hh z
      · intro z
        rw [keyAt_setFwd]
        exact hk z
      · intro z
        rw [valueAt_setFwd]
        exact hv z
      · rw [level_setFwd]
        exact hlv
      · rw [size_setFwd]
        exact hsz
      · intro z j hcnd
        have hne : z ≠ updAt updates c ∨ j ≠ c := by
          by_contra hcn
          push_neg at hcn
          exact hcnd (by rw [hcn.2]; exact ⟨hcn.1, by omega⟩)
        rw [fwd_setFwd_ne _ _ hne]
        refine hold z j ?_
        rintro ⟨h1, h2⟩
        exact hcnd ⟨h1, by omega⟩
      · intro j hj
        by_cases hjc : j = c
        · subst hjc
          rw [fwd_setFwd_self _ _ hu_lt1 hu_h1]
          exact hyc
        · have hjlt : j < min c hy := by omega
          rw [fwd_setFwd_ne _ _ (Or.inr hjc)]
          exact hnew j hjlt
    · rw [if_neg (by
        rw [hfc]
        intro hcontra
        exact hcy ((hcond c hclt).mp hcontra))]
      have hmin : min c hy = hy := by omega
      rw [hmin] at hold hnew
      exact ⟨hlen, hh, hk, hv, hlv, hsz, hold, hnew⟩

/-- Effect of the level-shrink loop of `Delete`: only the `level` field
changes; it lands at most at the old level, stays positive, every dropped
level is empty at the head, and (fuel permitting) the stop condition
holds. -/
theorem shrinkLevel_spec [DecidableEq V] : ∀ (t : Nat) (st : SkipList K V),
    ∃ L, shrinkLevel st t = ⟨st.nodes, L, st.size⟩ ∧ L ≤ st.level ∧
      (1 ≤ st.level → 1 ≤ L) ∧
      (∀ m, L ≤ m → m < st.level → fwd st 0 m = none) ∧
      (st.level ≤ t + 1 → 1 ≤ st.level → (L = 1 ∨ fwd st 0 (L - 1) ≠ none)) := by
  intro t
  induction t with
  | zero =>
    intro st
    refine ⟨st.level, by rw [shrinkLevel], le_rfl, fun h => h, ?_, ?_⟩
    · intro m h1 h2
      omega
    · intro h1 h2
      left
      omega
  | succ t ih =>
    intro st
    rw [shrinkLevel]
    by_cases hc : 1 < st.level ∧ fwd st 0 (st.level - 1) = none
    · rw [if_pos hc]
      obtain ⟨L, hEq, hle, hpos, hempty, hstop⟩ := ih ⟨st.nodes, st.level - 1, st.size⟩
      have hle1 : L ≤ st.level - 1 := hle
      refine ⟨L, hEq, by omega, ?_, ?_, ?_⟩
      · intro h1
        exact hpos (by show 1 ≤ st.level - 1; omega)
      · intro m h1 h2
        by_cases hm : m < st.level - 1
        · have hq := hempty m h1 hm
          rw [fwd_mk] at hq
          exact hq
        · have hm1 : m = st.level - 1 := by omega
          rw [hm1]
          exact hc.2
      · intro h1 h2
        have hres := hstop (by show st.level - 1 ≤ t + 1; omega)
          (by show 1 ≤ st.level - 1; omega)
        rcases hres with h | h
        · exact Or.inl h
        · refine Or.inr ?_
          rw [fwd_mk] at h
          exact h
    · rw [if_neg hc]
      refine ⟨st.level, rfl, le_rfl, fun h => h, ?_, ?_⟩
      · intro m h1 h2
        omega
      · intro h1 h2
        rw [not_and_or] at hc
        rcases hc with h | h
        · left
          omega
        · right
          exact h

/-- Abstract form of the present-key case of `Delete`: a state agreeing
with `sl` everywhere except that the level-`j` predecessors now bypass the
target node `y`, re-leveled to any `L` consistent with the shrink loop,
represents the association list with `y`'s key removed. -/
theorem represents_delete_abstract [LinearOrder K] {sl st1 : SkipList K V}
    {tour : List Nat} {ks : List K} (hrep : Represents sl tour ks)
    {A B1 : List Nat} {ksA ks1 : List K} {κ : K} {y : Nat}
    (htour : tour = A ++ y :: B1) (hks : ks = ksA ++ κ :: ks1)
    (hmapA : A.map (keyAt sl) = ksA.map some)
    (hmapB : (y :: B1).map (keyAt sl) = (κ :: ks1).map some)
    {L : Nat}
    (hseq : st1.nodes.length = sl.nodes.length)
    (hH : ∀ z, height st1 z = height sl z)
    (hK : ∀ z, keyAt st1 z = keyAt sl z)
    (hV : ∀ z, valueAt st1 z = valueAt sl z)
    (hsz1 : st1.size = sl.size)
    (hfwd_old : ∀ z j, ¬(z = predAt sl A j ∧ j < height sl y) → fwd st1 z j = fwd sl z j)
    (hfwd_new : ∀ j, j < height sl y → fwd st1 (predAt sl A j) j = fwd sl y j)
    (hLle : L ≤ sl.level) (hLpos : 1 ≤ L)
    (hLempty : ∀ m, L ≤ m → m < sl.level → fwd st1 0 m = none)
    (hLstop : L = 1 ∨ fwd st1 0 (L - 1) ≠ none) :
    Represents (⟨st1.nodes, L, st1.size - 1⟩ : SkipList K V) (A ++ B1) (ksA ++ ks1) := by
  have hlen := hrep.1
  have hk0 := hrep.2.1
  have hh0 := hrep.2.2.1
  have hmap := hrep.2.2.2.1
  have hsort := hrep.2.2.2.2.1
  have hmem := hrep.2.2.2.2.2.1
  have hlev1 := hrep.2.2.2.2.2.2.1
  have hlevmax := hrep.2.2.2.2.2.2.2.1
  have hsize := hrep.2.2.2.2.2.2.2.2.1
  have hchains := hrep.2.2.2.2.2.2.2.2.2.1
  have hymem := hmem y (by rw [htour]; exact List.mem_append_right _ (by simp))
  have hnd := tour_nodup hmap hsort
  rw [htour] at hnd
  have hmemA1 : ∀ z ∈ A, z ≠ 0 ∧ z < sl.nodes.length ∧ valueAt sl z ≠ none ∧
      1 ≤ height sl z ∧ height sl z ≤ sl.level := fun z hz =>
    hmem z (by rw [htour]; exact List.mem_append_left _ hz)
  have hmemB1 : ∀ z ∈ B1, z ≠ 0 ∧ z < sl.nodes.length ∧ valueAt sl z ≠ none ∧
      1 ≤ height sl z ∧ height sl z ≤ sl.level := fun z hz =>
    hmem z (by rw [htour]; exact List.mem_append_right _ (by simp [hz]))
  -- the chains of the unlinked state
  have hst1chain : ∀ i, i < maxLevel → Links st1 i 0 (Fil sl i (A ++ B1)) none := by
    intro i hi
    have hold := hchains i hi
    rw [htour] at hold
    have hfold : (A ++ y :: B1).filter (fun x => decide (i < height sl x)) =
        Fil sl i A ++ Fil sl i (y :: B1) := by
      rw [← Fil_append]
      rfl
    rw [hfold] at hold
    have hndA : (Fil sl i A).Nodup := by
      rw [Fil]
      exact (List.Nodup.of_append_left hnd).filter _
    have h0A : 0 ∉ Fil sl i A := fun hc => (hmemA1 _ (Fil_subset hc)).1 rfl
    have hnd0A : (0 :: Fil sl i A).Nodup := List.nodup_cons.mpr ⟨h0A, hndA⟩
    have hgoal_eq : Fil sl i (A ++ B1) = Fil sl i A ++ Fil sl i B1 := Fil_append sl i A B1
    rw [hgoal_eq]
    by_cases hiy : i < height sl y
    · have hFB : Fil sl i (y :: B1) = y :: Fil sl i B1 := by
        rw [Fil, List.filter_cons, if_pos (decide_eq_true hiy)]
        rfl
      rw [hFB] at hold
      obtain ⟨holdA, holdyB⟩ := links_append.mp hold
      have hev : ∀ u ∈ 0 :: Fil sl i A, u ≠ (Fil sl i A).getLastD 0 →
          fwd st1 u i = fwd sl u i := by
        intro u hu hne
        refine hfwd_old u i ?_
        rintro ⟨hup, -⟩
        exact hne hup
      cases hFB1 : Fil sl i B1 with
      | nil =>
        rw [hFB1] at holdyB
        rw [List.append_nil]
        refine links_retarget holdA hnd0A hev ?_
        exact (hfwd_new i hiy).trans holdyB.2
      | cons w F =>
        rw [hFB1] at holdyB
        obtain ⟨hyw, holdF⟩ := links_cons.mp holdyB
        rw [links_append]
        refine ⟨links_retarget holdA hnd0A hev ((hfwd_new i hiy).trans hyw), ?_⟩
        refine links_congr ?_ holdF
        intro u hu
        refine hfwd_old u i ?_
        rintro ⟨hup, -⟩
        have huB : u ∈ B1 := by
          have hu1 : u ∈ Fil sl i B1 := by
            rw [hFB1]
            exact hu
          exact Fil_subset hu1
        obtain ⟨hp_lt, hp_h, hp_mem⟩ := predAt_facts hrep htour hi
        rcases hp_mem with h0 | hA1
        · exact (hmemB1 u huB).1 (by rw [hup, h0])
        · have hdisj := List.disjoint_of_nodup_append hnd
          exact hdisj (hup ▸ hA1) (by simp [huB])
    · have hFB : Fil sl i (y :: B1) = Fil sl i B1 := by
        rw [Fil, List.filter_cons, if_neg (by simpa using hiy)]
        rfl
      rw [hFB] at hold
      refine links_congr ?_ hold
      intro u hu
      refine hfwd_old u i ?_
      rintro ⟨-, h2⟩
      exact hiy h2
  have hky : keyAt sl y = some κ := by
    simp only [List.map_cons, List.cons.injEq] at hmapB
    exact hmapB.1
  have hmapB1 : B1.map (keyAt sl) = ks1.map some := by
    simp only [List.map_cons, List.cons.injEq] at hmapB
    exact hmapB.2
  -- heights of surviving members are bounded by the shrunk level
  have hhle : ∀ x ∈ A ++ B1, height sl x ≤ L := by
    intro x hx
    by_contra hgt
    have hxmem : x ∈ tour := by
      rw [htour]
      rcases List.mem_append.mp hx with h | h
      · exact List.mem_append_left _ h
      · exact List.mem_append_right _ (by simp [h])
    obtain ⟨-, -, -, hx1, hx2⟩ := hmem x hxmem
    have hm1 : height sl x - 1 < maxLevel := by omega
    have hchainm := hst1chain (height sl x - 1) hm1
    have hxfil : x ∈ Fil sl (height sl x - 1) (A ++ B1) := by
      rw [Fil, List.mem_filter]
      exact ⟨hx, decide_eq_true (by omega)⟩
    have hempty := hLempty (height sl x - 1) (by omega) (by omega)
    cases hFil : Fil sl (height sl x - 1) (A ++ B1) with
    | nil =>
      rw [hFil] at hxfil
      cases hxfil
    | cons w F =>
      rw [hFil] at hchainm
      have hstep : fwd st1 0 (height sl x - 1) = some w := by
        have := hchainm.1
        cases this with
        | cons hrel _ => exact hrel
      rw [hempty] at hstep
      cases hstep
  refine ⟨?_, ?_, ?_, ?_, ?_, ?_, ?_, ?_, ?_, ?_, ?_⟩
  · show st1.nodes.length > 0
    rw [hseq]
    exact hlen
  · rw [keyAt_mk, hK 0]
    exact hk0
  · rw [height_mk, hH 0]
    exact hh0
  · have hA1 : A.map (keyAt (⟨st1.nodes, L, st1.size - 1⟩ : SkipList K V)) =
        ksA.map some := by
      calc A.map (keyAt (⟨st1.nodes, L, st1.size - 1⟩ : SkipList K V))
          = A.map (keyAt sl) := List.map_congr_left (fun z _ => by rw [keyAt_mk, hK z])
        _ = ksA.map some := hmapA
    have hB2 : B1.map (keyAt (⟨st1.nodes, L, st1.size - 1⟩ : SkipList K V)) =
        ks1.map some := by
      calc B1.map (keyAt (⟨st1.nodes, L, st1.size - 1⟩ : SkipList K V))
          = B1.map (keyAt sl) := List.map_congr_left (fun z _ => by rw [keyAt_mk, hK z])
        _ = ks1.map some := hmapB1
    rw [List.map_append, List.map_append, hA1, hB2]
  · rw [hks] at hsort
    have hpw := List.chain'_iff_pairwise.mp hsort
    refine List.chain'_iff_pairwise.mpr (hpw.sublist ?_)
    exact List.Sublist.append_left (List.sublist_cons_self κ ks1) ksA
  · intro x hx
    have hxmem : x ∈ tour := by
      rw [htour]
      rcases List.mem_append.mp hx with h | h
      · exact List.mem_append_left _ h
      · exact List.mem_append_right _ (by simp [h])
    obtain ⟨h1, h2, h3, h4, h5⟩ := hmem x hxmem
    refine ⟨h1, ?_, ?_, ?_, ?_⟩
    · show x < st1.nodes.length
      rw [hseq]
      exact h2
    · rw [valueAt_mk, hV x]
      exact h3
    · rw [height_mk, hH x]
      exact h4
    · rw [height_mk, hH x]
      exact hhle x hx
  · exact hLpos
  · show L ≤ maxLevel
    omega
  · show st1.size - 1 = (A ++ B1).length
    rw [hsz1, hsize, htour]
    simp only [List.length_append, List.length_cons]
    omega
  · intro i hi
    have hfil1 : ((A ++ B1).filter
        (fun x => decide (i < height (⟨st1.nodes, L, st1.size - 1⟩ : SkipList K V) x))) =
        Fil sl i (A ++ B1) := by
      rw [Fil]
      refine List.filter_congr ?_
      intro z _
      rw [height_mk, hH z]
    rw [hfil1]
    refine links_congr ?_ (hst1chain i hi)
    intro u _
    rw [fwd_mk]
  · show L = 1 ∨ fwd (⟨st1.nodes, L, st1.size - 1⟩ : SkipList K V) 0 (L - 1) ≠ none
    rcases hLstop with h | h
    · exact Or.inl h
    · refine Or.inr ?_
      rw [fwd_mk]
      exact h

/-- The present-key case of `Delete`: success is reported, the result
represents the association list with the key removed, and the count drops
by one. -/
theorem delete_present_spec [LinearOrder K] [DecidableEq V] {sl : SkipList K V}
    {tour : List Nat} {ks : List K} (hrep : Represents sl tour ks)
    {A B1 : List Nat} {ksA ks1 : List K} {κ : K} {y : Nat}
    (htour : tour = A ++ y :: B1) (hks : ks = ksA ++ κ :: ks1)
    (hmapA : A.map (keyAt sl) = ksA.map some)
    (hmapB : (y :: B1).map (keyAt sl) = (κ :: ks1).map some)
    (hkA : ∀ k ∈ ksA, k < κ) (hkB : ∀ k ∈ κ :: ks1, κ ≤ k) :
    (Delete sl κ).1 = true ∧
    Represents (Delete sl κ).2 (A ++ B1) (ksA ++ ks1) ∧
    (Delete sl κ).2.size = sl.size - 1 := by
  have hlen := hrep.1
  have hmap := hrep.2.2.2.1
  have hsort := hrep.2.2.2.2.1
  have hmem := hrep.2.2.2.2.2.1
  have hlev1 := hrep.2.2.2.2.2.2.1
  have hlevmax := hrep.2.2.2.2.2.2.2.1
  have hymem := hmem y (by rw [htour]; exact List.mem_append_right _ (by simp))
  have hnd := tour_nodup hmap hsort
  rw [htour] at hnd
  have hndB : (y :: B1).Nodup := List.Nodup.of_append_right hnd
  have hynotB1 : y ∉ B1 := (List.nodup_cons.mp hndB).1
  have hupdA := updAt_descend hrep htour hmapA hmapB hkA hkB
  rw [delete_present_eq hrep htour hmapA hmapB hkA hkB rfl rfl]
  set st1 : SkipList K V := unlinkLoop (descend sl κ sl.level 0) y sl 0 sl.level with hst1
  have hcond : ∀ i, i < sl.level →
      (fwd sl (updAt (descend sl κ sl.level 0) i) i = some y ↔ i < height sl y) := by
    intro i hilvl
    have hi : i < maxLevel := by omega
    rw [hupdA i, fwd_pred hrep htour hi]
    by_cases hiy : i < height sl y
    · have hFB : Fil sl i (y :: B1) = y :: Fil sl i B1 := by
        rw [Fil, List.filter_cons, if_pos (decide_eq_true hiy)]
        rfl
      rw [hFB]
      simp [hiy]
    · have hFB : Fil sl i (y :: B1) = Fil sl i B1 := by
        rw [Fil, List.filter_cons, if_neg (by simpa using hiy)]
        rfl
      rw [hFB]
      constructor
      · intro hcontra
        exact absurd (Fil_subset (List.mem_of_mem_head? hcontra)) hynotB1
      · intro h
        exact absurd h hiy
  have hyne : ∀ i, i < sl.level → y ≠ updAt (descend sl κ sl.level 0) i := by
    intro i hilvl
    have hi : i < maxLevel := by omega
    rw [hupdA i]
    obtain ⟨-, -, hp_mem⟩ := predAt_facts hrep htour hi
    rcases hp_mem with h0 | hA1
    · rw [h0]
      exact hymem.1
    · intro hcontra
      have hdisj := List.disjoint_of_nodup_append hnd
      exact hdisj (hcontra ▸ hA1) (by simp)
  have hupdB : ∀ i, i < height sl y →
      updAt (descend sl κ sl.level 0) i < sl.nodes.length ∧
      i < height sl (updAt (descend sl κ sl.level 0) i) := by
    intro i hiy
    have hi : i < maxLevel := by
      have := hymem.2.2.2.2
      omega
    obtain ⟨hp_lt, hp_h, -⟩ := predAt_facts hrep htour hi
    rw [hupdA i]
    exact ⟨hp_lt, hp_h⟩
  obtain ⟨h1len, h1h, h1k, h1v, h1lv, h1sz, h1old, h1new⟩ :=
    unlinkLoop_spec hcond hyne hupdB hymem.2.2.2.2 sl.level 0 sl (by omega) rfl
      (fun z => rfl) (fun z => rfl) (fun z => rfl) rfl rfl
      (fun z j h => rfl) (fun j hj => absurd hj (by omega))
  rw [← hst1] at h1len h1h h1k h1v h1lv h1sz h1old h1new
  obtain ⟨L, hEq, hLle, hLpos, hLempty, hLstop⟩ := shrinkLevel_spec st1.level st1
  refine ⟨rfl, ?_, ?_⟩
  · rw [hEq]
    exact represents_delete_abstract hrep htour hks hmapA hmapB h1len h1h h1k h1v h1sz
      (fun z j hc => h1old z j (by rw [hupdA j]; exact hc))
      (fun j hj => by have hq := h1new j hj; rwa [hupdA j] at hq)
      (by rw [h1lv] at hLle; exact hLle) (hLpos (by rw [h1lv]; exact hlev1))
      (fun m hm1 hm2 => hLempty m hm1 (by rw [h1lv]; exact hm2))
      (hLstop (by omega) (by rw [h1lv]; exact hlev1))
  · show (shrinkLevel st1 st1.level).size - 1 = sl.size - 1
    rw [hEq]
    show st1.size - 1 = sl.size - 1
    rw [h1sz]

theorem chainToList_of_links {sl : SkipList K V} {i : Nat} :
    ∀ (l : List Nat) (s fuel : Nat), Links sl i s l none → l.length ≤ fuel →
    chainToList sl i (fwd sl s i) fuel = l := by
  intro l
  induction l with
  | nil =>
    intro s fuel h _
    rw [links_nil] at h
    rw [h]
    cases fuel with
    | zero => rfl
    | succ f => rfl
  | cons z t ih =>
    intro s fuel h hf
    obtain ⟨h1, h2⟩ := links_cons.mp h
    rw [h1]
    cases fuel with
    | zero => simp at hf
    | succ f =>
      rw [chainToList, ih z f h2 (by simp only [List.length_cons] at hf; omega)]

theorem iterToList_of_links {sl : SkipList K V} :
    ∀ (l : List Nat) (s fuel : Nat), Links sl 0 s l none → l.length ≤ fuel →
    iterToList sl (fwd sl s 0) fuel = l.map (fun x => (keyAt sl x, valueAt sl x)) := by
  intro l
  induction l with
  | nil =>
    intro s fuel h _
    rw [links_nil] at h
    rw [h]
    cases fuel with
    | zero => rfl
    | succ f => rfl
  | cons z t ih =>
    intro s fuel h hf
    obtain ⟨h1, h2⟩ := links_cons.mp h
    rw [h1]
    cases fuel with
    | zero => simp at hf
    | succ f =>
      rw [iterToList, ih z f h2 (by simp only [List.length_cons] at hf; omega)]
      rfl

/-- A full iteration visits exactly the tour, in order. -/
theorem iterate_eq_tour [LinearOrder K] {sl : SkipList K V}
    {tour : List Nat} {ks : List K} (hrep : Represents sl tour ks) :
    iterate sl = tour.map (fun x => (keyAt sl x, valueAt sl x)) := by
  have hlen := hrep.1
  have hmap := hrep.2.2.2.1
  have hsort := hrep.2.2.2.2.1
  have hmem := hrep.2.2.2.2.2.1
  have hchains := hrep.2.2.2.2.2.2.2.2.2.1
  have h0 : (0 : Nat) < maxLevel := by norm_num [maxLevel]
  have hchain := hchains 0 h0
  have hfil : tour.filter (fun x => decide (0 < height sl x)) = tour := by
    rw [List.filter_eq_self]
    intro z hz
    exact decide_eq_true (by have := (hmem z hz).2.2.2.1; omega)
  rw [hfil] at hchain
  have hflen : tour.length < sl.nodes.length :=
    tour_length_lt hmap hsort (fun x hx => ⟨(hmem x hx).1, (hmem x hx).2.1⟩) hlen
  rw [iterate]
  exact iterToList_of_links tour 0 sl.nodes.length hchain (by omega)

/-- The fresh list represents the empty association. -/
theorem represents_mk [LinearOrder K] : Represents (mkSkipList : SkipList K V) [] [] := by
  have hfwd0 : ∀ i, fwd (mkSkipList : SkipList K V) 0 i = none := by
    intro i
    show (List.replicate maxLevel (none : Ptr)).getD i none = none
    rw [List.getD_eq_getElem?_getD, List.getElem?_replicate]
    split <;> rfl
  refine ⟨by simp [mkSkipList], rfl, rfl, rfl, List.chain'_nil, ?_, le_rfl,
    by show (1 : Nat) ≤ 32; omega, rfl, ?_, Or.inl rfl⟩
  · intro x hx
    cases hx
  · intro i _
    exact links_nil.mpr (hfwd0 i)

/-- Splitting a head hit: the at-or-above part starts with a node bearing
exactly the searched key. -/
theorem head_present [LinearOrder K] {sl : SkipList K V} {B : List Nat} {ksB : List K}
    (hmapB : B.map (keyAt sl) = ksB.map some) {κ : K} (hhit : ksB.head? = some κ) :
    ∃ y B1 ks1, B = y :: B1 ∧ ksB = κ :: ks1 ∧ keyAt sl y = some κ ∧
      B1.map (keyAt sl) = ks1.map some := by
  cases ksB with
  | nil => simp at hhit
  | cons k ks1 =>
    have hk : k = κ := by simpa using hhit
    subst hk
    cases B with
    | nil => simp at hmapB
    | cons y B1 =>
      simp only [List.map_cons, List.cons.injEq] at hmapB
      exact ⟨y, B1, ks1, rfl, rfl, hmapB.1, hmapB.2⟩

/-- `Insert` preserves the invariant for any possible drawn level. -/
theorem inv_insert [LinearOrder K] [DecidableEq V] {sl : SkipList K V}
    (hinv : Inv sl) (κ : K) (v : V) {lvl : Nat}
    (h1 : 1 ≤ lvl) (h2 : lvl ≤ maxLevel) : Inv (Insert sl κ v lvl) := by
  obtain ⟨tour, ks, hrep⟩ := hinv
  obtain ⟨A, B, ksA, ksB, htour, hks, hmapA, hmapB, hkA, hkB⟩ :=
    represents_split hrep.2.2.2.1 hrep.2.2.2.2.1 κ
  by_cases hhit : ksB.head? = some κ
  · obtain ⟨y, B1, ks1, hB, hksB, hky, hmapB1⟩ := head_present hmapB hhit
    subst hB
    rw [insert_hit_eq hrep htour hmapA hmapB hkA hkB rfl hhit v lvl]
    exact ⟨tour, ks,
      represents_setValue hrep (by rw [htour]; exact List.mem_append_right _ (by simp)) v⟩
  · obtain ⟨hrep1, -, -⟩ := insert_new_spec hrep htour hks hmapA hmapB hkA hkB hhit v h1 h2
    exact ⟨_, _, hrep1⟩

/-- `Delete` preserves the invariant. -/
theorem inv_delete [LinearOrder K] [DecidableEq V] {sl : SkipList K V}
    (hinv : Inv sl) (κ : K) : Inv ((Delete sl κ).2) := by
  obtain ⟨tour, ks, hrep⟩ := hinv
  obtain ⟨A, B, ksA, ksB, htour, hks, hmapA, hmapB, hkA, hkB⟩ :=
    represents_split hrep.2.2.2.1 hrep.2.2.2.2.1 κ
  by_cases hhit : ksB.head? = some κ
  · obtain ⟨y, B1, ks1, hB, hksB, hky, hmapB1⟩ := head_present hmapB hhit
    subst hB
    subst hksB
    obtain ⟨-, hrep2, -⟩ := delete_present_spec hrep htour hks hmapA hmapB hkA hkB
    exact ⟨_, _, hrep2⟩
  · rw [delete_absent_eq hrep htour hmapA hmapB hkA hkB hhit]
    exact ⟨tour, ks, hrep⟩

/-- Any operation sequence from a fresh list lands on an
invariant-satisfying state. -/
theorem inv_applySLOps [LinearOrder K] [DecidableEq V] (ops : List (SLOp K V))
    (hok : ∀ op ∈ ops, SLOpOK op) : Inv (applySLOps ops) := by
  rw [applySLOps]
  have hstep : ∀ (l : List (SLOp K V)) (sl : SkipList K V), Inv sl →
      (∀ op ∈ l, SLOpOK op) → Inv (l.foldl applySLOp sl) := by
    intro l
    induction l with
    | nil =>
      intro sl h _
      exact h
    | cons op l ih =>
      intro sl h hokl
      rw [List.foldl_cons]
      refine ih _ ?_ (fun o ho => hokl o (by simp [ho]))
      cases op with
      | put k v lvl =>
        have hop := hokl (.put k v lvl) (by simp)
        exact inv_insert h k v hop.1 hop.2
      | del k => exact inv_delete h k
  exact hstep ops mkSkipList ⟨[], [], represents_mk⟩ hok

/-- C5: for every sequence of insert and delete operations (each insert's
drawn level a possible `randomLevel` outcome), the resulting state
satisfies the representation invariant, at every level the chain of
forward-linked nodes carries keys that are strictly increasing under the
comparator, and a full ascending iteration from a new iterator yields the
keys in strictly increasing order with no duplicates. -/
theorem skiplist_ordering_invariant [LinearOrder K] [DecidableEq V]
    (ops : List (SLOp K V)) (hok : ∀ op ∈ ops, SLOpOK op) :
    ∃ tour ks, Represents (applySLOps ops) tour ks ∧
      (∀ i, i < maxLevel → ∃ ksI : List K, ksI.Sublist ks ∧
        (chainToList (applySLOps ops) i (fwd (applySLOps ops) 0 i)
            (applySLOps ops).nodes.length).map (keyAt (applySLOps ops)) = ksI.map some ∧
        List.Chain' (· < ·) ksI) ∧
      (iterate (applySLOps ops)).map Prod.fst = ks.map some ∧
      List.Chain' (· < ·) ks ∧ ks.Nodup := by
  obtain ⟨tour, ks, hrep⟩ := inv_applySLOps ops hok
  set sl := applySLOps ops with hsl
  have hmap := hrep.2.2.2.1
  have hsort := hrep.2.2.2.2.1
  have hmem := hrep.2.2.2.2.2.1
  have hchains := hrep.2.2.2.2.2.2.2.2.2.1
  have hlen := hrep.1
  have hflen : tour.length < sl.nodes.length :=
    tour_length_lt hmap hsort (fun x hx => ⟨(hmem x hx).1, (hmem x hx).2.1⟩) hlen
  refine ⟨tour, ks, hrep, ?_, ?_, hsort, (List.chain'_iff_pairwise.mp hsort).nodup⟩
  · intro i hi
    have hchain := hchains i hi
    have hwalk : chainToList sl i (fwd sl 0 i) sl.nodes.length =
        tour.filter (fun x => decide (i < height sl x)) := by
      refine chainToList_of_links _ 0 _ hchain ?_
      have := List.length_filter_le (fun x => decide (i < height sl x)) tour
      omega
    rw [hwalk]
    have hsub : List.Sublist
        ((tour.filter (fun x => decide (i < height sl x))).map (keyAt sl))
        (ks.map some) := by
      rw [← hmap]
      exact List.Sublist.map _ (List.filter_sublist tour)
    obtain ⟨ksI, hsubI, heqI⟩ := List.sublist_map_iff.mp hsub
    refine ⟨ksI, hsubI, heqI, ?_⟩
    exact List.chain'_iff_pairwise.mpr ((List.chain'_iff_pairwise.mp hsort).sublist hsubI)
  · rw [iterate_eq_tour hrep, List.map_map]
    calc tour.map (Prod.fst ∘ fun x => (keyAt sl x, valueAt sl x))
        = tour.map (keyAt sl) := List.map_congr_left (fun x _ => rfl)
      _ = ks.map some := hmap

/-- Witness for C5 at a concrete operation sequence. -/
theorem skiplist_ordering_invariant_witness :
    (∀ op ∈ ([.put 2 20 2, .put 1 10 1, .del 2] : List (SLOp Int Nat)), SLOpOK op) ∧
    (∃ tour ks,
      Represents (applySLOps ([.put 2 20 2, .put 1 10 1, .del 2] : List (SLOp Int Nat)))
        tour ks ∧
      (∀ i, i < maxLevel → ∃ ksI : List Int, ksI.Sublist ks ∧
        (chainToList (applySLOps ([.put 2 20 2, .put 1 10 1, .del 2] : List (SLOp Int Nat)))
            i (fwd (applySLOps ([.put 2 20 2, .put 1 10 1, .del 2] : List (SLOp Int Nat))) 0 i)
            (applySLOps ([.put 2 20 2, .put 1 10 1, .del 2] :
              List (SLOp Int Nat))).nodes.length).map
          (keyAt (applySLOps ([.put 2 20 2, .put 1 10 1, .del 2] : List (SLOp Int Nat)))) =
          ksI.map some ∧
        List.Chain' (· < ·) ksI) ∧
      (iterate (applySLOps ([.put 2 20 2, .put 1 10 1, .del 2] :
        List (SLOp Int Nat)))).map Prod.fst = ks.map some ∧
      List.Chain' (· < ·) ks ∧ ks.Nodup) :=
  ⟨by decide, skiplist_ordering_invariant _ (by decide)⟩

/-- C6: inserting an already-present key updates the value in place:
`Find` then returns the new value, the key still occurs exactly once in a
full iteration, and `Size` is unchanged. -/
theorem skiplist_upsert [LinearOrder K] [DecidableEq V] {sl : SkipList K V}
    (hinv : Inv sl) {κ : K} (hpresent : Find sl κ ≠ none) (v : V) (lvl : Nat) :
    Find (Insert sl κ v lvl) κ = some v ∧
    Size (Insert sl κ v lvl) = Size sl ∧
    @List.count (Option K) instBEqOfDecidableEq (some κ)
      ((iterate (Insert sl κ v lvl)).map Prod.fst) = 1 := by
  obtain ⟨tour, ks, hrep⟩ := hinv
  obtain ⟨A, B, ksA, ksB, htour, hks, hmapA, hmapB, hkA, hkB⟩ :=
    represents_split hrep.2.2.2.1 hrep.2.2.2.2.1 κ
  by_cases hhit : ksB.head? = some κ
  case neg => exact absurd (find_absent hrep htour hmapA hmapB hkA hkB hhit) hpresent
  case pos =>
  obtain ⟨y, B1, ks1, hB, hksB, hky, hmapB1⟩ := head_present hmapB hhit
  subst hB
  have hymem := hrep.2.2.2.2.2.1 y (by rw [htour]; exact List.mem_append_right _ (by simp))
  rw [insert_hit_eq hrep htour hmapA hmapB hkA hkB rfl hhit v lvl]
  have hrep1 : Represents (setValue sl y v) tour ks :=
    represents_setValue hrep (by rw [htour]; exact List.mem_append_right _ (by simp)) v
  have hmapA1 : A.map (keyAt (setValue sl y v)) = ksA.map some := by
    calc A.map (keyAt (setValue sl y v)) = A.map (keyAt sl) :=
        List.map_congr_left (fun z _ => keyAt_setValue sl y v z)
      _ = ksA.map some := hmapA
  have hmapB2 : (y :: B1).map (keyAt (setValue sl y v)) = ksB.map some := by
    calc (y :: B1).map (keyAt (setValue sl y v)) = (y :: B1).map (keyAt sl) :=
        List.map_congr_left (fun z _ => keyAt_setValue sl y v z)
      _ = ksB.map some := hmapB
  refine ⟨?_, rfl, ?_⟩
  · rw [find_present hrep1 htour hmapA1 hmapB2 hkA hkB rfl hhit]
    exact valueAt_setValue_self sl v hymem.2.1
  · rw [iterate_eq_tour hrep1, List.map_map]
    have hfst : tour.map (Prod.fst ∘ fun x =>
        (keyAt (setValue sl y v) x, valueAt (setValue sl y v) x)) = ks.map some := by
      calc tour.map (Prod.fst ∘ fun x =>
              (keyAt (setValue sl y v) x, valueAt (setValue sl y v) x))
          = tour.map (keyAt (setValue sl y v)) := List.map_congr_left (fun x _ => rfl)
        _ = ks.map some := hrep1.2.2.2.1
    rw [hfst]
    have hκks : κ ∈ ks := by
      rw [hks]
      refine List.mem_append_right _ ?_
      rw [hksB]
      simp
    have hnodup : ks.Nodup := (List.chain'_iff_pairwise.mp hrep.2.2.2.2.1).nodup
    exact List.count_eq_one_of_mem (hnodup.map (Option.some_injective K))
      (List.mem_map_of_mem some hκks)

/-- Witness for C6 at a concrete state and key. -/
theorem skiplist_upsert_witness :
    Inv (Insert (mkSkipList : SkipList Int Nat) 1 10 1) ∧
    Find (Insert (mkSkipList : SkipList Int Nat) 1 10 1) 1 ≠ none ∧
    (Find (Insert (Insert (mkSkipList : SkipList Int Nat) 1 10 1) 1 99 1) 1 = some 99 ∧
     Size (Insert (Insert (mkSkipList : SkipList Int Nat) 1 10 1) 1 99 1) =
       Size (Insert (mkSkipList : SkipList Int Nat) 1 10 1) ∧
     @List.count (Option Int) instBEqOfDecidableEq (some 1)
       ((iterate (Insert (Insert (mkSkipList : SkipList Int Nat) 1 10 1) 1 99 1)).map
        Prod.fst) = 1) :=
  ⟨⟨[1], [1], by decide⟩, by decide, skiplist_upsert ⟨[1], [1], by decide⟩ (by decide) 99 1⟩

/-- C7: deleting a present key reports success, removes it (a subsequent
`Find` is not-found) and decrements `Size` by exactly one; deleting an
absent key returns `false` with the structure unchanged. -/
theorem skiplist_delete_correct [LinearOrder K] [DecidableEq V] {sl : SkipList K V}
    (hinv : Inv sl) (κ : K) :
    (Find sl κ ≠ none →
      (Delete sl κ).1 = true ∧ Find (Delete sl κ).2 κ = none ∧
      Size (Delete sl κ).2 + 1 = Size sl) ∧
    (Find sl κ = none → Delete sl κ = (false, sl)) := by
  obtain ⟨tour, ks, hrep⟩ := hinv
  obtain ⟨A, B, ksA, ksB, htour, hks, hmapA, hmapB, hkA, hkB⟩ :=
    represents_split hrep.2.2.2.1 hrep.2.2.2.2.1 κ
  by_cases hhit : ksB.head? = some κ
  · obtain ⟨y, B1, ks1, hB, hksB, hky, hmapB1⟩ := head_present hmapB hhit
    subst hB
    subst hksB
    have hfind := find_present hrep htour hmapA hmapB hkA hkB rfl rfl
    have hymem := hrep.2.2.2.2.2.1 y
      (by rw [htour]; exact List.mem_append_right _ (by simp))
    obtain ⟨hret, hrep2, hsz⟩ := delete_present_spec hrep htour hks hmapA hmapB hkA hkB
    constructor
    · rintro -
      refine ⟨hret, ?_, ?_⟩
      · have hmap2 := hrep2.2.2.2.1
        have hlenA : A.length = ksA.length := by
          have := congrArg List.length hmapA
          simpa using this
        have happ : A.map (keyAt (Delete sl κ).2) ++ B1.map (keyAt (Delete sl κ).2) =
            ksA.map some ++ ks1.map some := by
          rw [← List.map_append, ← List.map_append]
          exact hmap2
        obtain ⟨hA2, hB2⟩ := List.append_inj happ (by simpa using hlenA)
        have hkB1 : ∀ k ∈ ks1, κ ≤ k := fun k hk => hkB k (by simp [hk])
        have habs1 : ks1.head? ≠ some κ := by
          have hsort := hrep.2.2.2.2.1
          rw [hks] at hsort
          obtain ⟨-, hcB, -⟩ := List.chain'_append.mp hsort
          intro hcontra
          exact lt_irrefl κ ((List.chain'_cons'.mp hcB).1 κ hcontra)
        exact find_absent hrep2 rfl hA2 hB2 hkA hkB1 habs1
      · show (Delete sl κ).2.size + 1 = sl.size
        rw [hsz]
        have hsize := hrep.2.2.2.2.2.2.2.2.1
        rw [hsize, htour]
        simp only [List.length_append, List.length_cons]
        omega
    · intro hnone
      rw [hfind] at hnone
      exact absurd hnone hymem.2.2.1
  · have hfind := find_absent hrep htour hmapA hmapB hkA hkB hhit
    constructor
    · intro hne
      exact absurd hfind hne
    · rintro -
      exact delete_absent_eq hrep htour hmapA hmapB hkA hkB hhit

/-- Witness for C7 at a concrete state and key. -/
theorem skiplist_delete_correct_witness :
    Inv (Insert (mkSkipList : SkipList Int Nat) 1 10 1) ∧
    ((Find (Insert (mkSkipList : SkipList Int Nat) 1 10 1) 1 ≠ none →
      (Delete (Insert (mkSkipList : SkipList Int Nat) 1 10 1) 1).1 = true ∧
      Find (Delete (Insert (mkSkipList : SkipList Int Nat) 1 10 1) 1).2 1 = none ∧
      Size (Delete (Insert (mkSkipList : SkipList Int Nat) 1 10 1) 1).2 + 1 =
        Size (Insert (mkSkipList : SkipList Int Nat) 1 10 1)) ∧
     (Find (Insert (mkSkipList : SkipList Int Nat) 1 10 1) 1 = none →
      Delete (Insert (mkSkipList : SkipList Int Nat) 1 10 1) 1 =
        (false, Insert (mkSkipList : SkipList Int Nat) 1 10 1))) :=
  ⟨⟨[1], [1], by decide⟩, skiplist_delete_correct ⟨[1], [1], by decide⟩ 1⟩

end SkipList

/-- C10: `NewSkipList` panics exactly on the nil comparator (with the fixed
message) and otherwise returns the fresh list with active level 1 and size
0; `memtable.New` always passes a nil comparator, so every call that gets
past opening the WAL reaches the panic and no call ever returns a
memtable. -/
theorem newSkipList_nil_comparator :
    (∀ (K V : Type), SkipList.NewSkipList (K := K) (V := V) none =
      .error "Comparator can not be nil") ∧
    (∀ (K V : Type) (cmp : K → K → Int),
      SkipList.NewSkipList (V := V) (some cmp) =
        Except.ok (SkipList.mkSkipList : SkipList K V) ∧
      (SkipList.mkSkipList : SkipList K V).level = 1 ∧
      (SkipList.mkSkipList : SkipList K V).size = 0) ∧
    (∀ (w : WAL) (lvls : Nat → Nat),
      memtableNew (.ok w) lvls = .crashed "Comparator can not be nil") ∧
    (∀ (openResult : Except Unit WAL) (lvls : Nat → Nat) (m : MemTable),
      memtableNew openResult lvls ≠ .ok m) := by
  refine ⟨fun K V => rfl, fun K V cmp => ⟨rfl, rfl, rfl⟩, fun w lvls => rfl, ?_⟩
  intro openResult lvls m h
  cases openResult with
  | error e => exact NewOutcome.noConfusion h
  | ok w => exact NewOutcome.noConfusion h

set_option maxRecDepth 32768 in
/-- C1: the recovery-fidelity scenario cannot be realized. On the WAL file
holding exactly Put(a,1), Put(b,2), Delete(a), Put(a,3), `memtable.New`
panics on the nil comparator instead of returning a memtable — for every
possible sequence of level draws — while the replay loop that the panic
makes unreachable would indeed have produced the index `{a:3, b:2}`
(a maps to 3, b maps to 2, two entries). -/
theorem memtable_new_recovery_crashes :
    (∀ lvls : Nat → Nat,
      memtableNew (.ok (WAL.Open recoveryFile)) lvls =
        .crashed "Comparator can not be nil") ∧
    (∀ (lvls : Nat → Nat) (m : MemTable),
      memtableNew (.ok (WAL.Open recoveryFile)) lvls ≠ .ok m) ∧
    (SkipList.Find (replayLoop recoveryFile (fun _ => 1) SkipList.mkSkipList
        (WAL.Open recoveryFile).NewIterator 0 (recoveryFile.length + 1)) [97] =
      some [3] ∧
     SkipList.Find (replayLoop recoveryFile (fun _ => 1) SkipList.mkSkipList
        (WAL.Open recoveryFile).NewIterator 0 (recoveryFile.length + 1)) [98] =
      some [2] ∧
     SkipList.Size (replayLoop recoveryFile (fun _ => 1) SkipList.mkSkipList
        (WAL.Open recoveryFile).NewIterator 0 (recoveryFile.length + 1)) = 2) := by
  refine ⟨fun lvls => rfl, ?_, by decide, by decide, by decide⟩
  intro lvls m h
  exact NewOutcome.noConfusion h

/-- C3: both memtable mutators write the log first. A call whose underlying
WAL write fails returns the error with the skip list exactly as before the
call; across any sequence of calls with arbitrarily failing writes, the
index equals the fold of just the successfully logged operations — failed
calls leave no trace in it. -/
theorem memtable_log_before_memory :
    (∀ (m : MemTable) (key value : List Nat) (lvl : Nat) (w : WAL),
      MemTable.Put m key value lvl (some w) = .error ⟨m.skipList, w⟩ ∧
      MemTable.Delete m key (some w) = .error ⟨m.skipList, w⟩) ∧
    (∀ (m : MemTable) (key value : List Nat) (lvl : Nat),
      MemTable.Put m key value lvl none =
        .ok ⟨m.skipList.Insert key value lvl, m.log.Write ⟨TypePut, key, value⟩⟩ ∧
      MemTable.Delete m key none =
        .ok ⟨(m.skipList.Delete key).2, m.log.Write ⟨TypeDelete, key, []⟩⟩) ∧
    (∀ (ops : List MemOp) (m0 : MemTable),
      (applyMemOps m0 ops).skipList =
        (ops.filterMap successfulSLOp).foldl SkipList.applySLOp m0.skipList) := by
  refine ⟨fun m k v l w => ⟨rfl, rfl⟩, fun m k v l => ⟨rfl, rfl⟩, ?_⟩
  intro ops
  induction ops with
  | nil =>
    intro m0
    rfl
  | cons op t ih =>
    intro m0
    cases op with
    | put k v lvl wf =>
      cases wf with
      | none =>
        rw [applyMemOps, List.filterMap_cons]
        dsimp only [successfulSLOp]
        rw [List.foldl_cons]
        exact ih _
      | some w =>
        rw [applyMemOps, List.filterMap_cons]
        dsimp only [successfulSLOp]
        exact ih _
    | del k wf =>
      cases wf with
      | none =>
        rw [applyMemOps, List.filterMap_cons]
        dsimp only [successfulSLOp]
        rw [List.foldl_cons]
        exact ih _
      | some w =>
        rw [applyMemOps, List.filterMap_cons]
        dsimp only [successfulSLOp]
        exact ih _

end Golsm
